import Mathlib

/-!
A shallow embedding of the `shortcut` crate: an indexed, queryable row store
(`src/lib.rs`), its condition language (`src/cmp.rs`), and its two reference
index implementations (`src/idx.rs`), together with proofs about the store's
index invariant, its query planner, and its `find`/`insert`/`delete` behaviour.

Modelling conventions:
* `usize` is modelled as `Nat`.
* Rust panics (a failed `debug_assert!`, `unreachable!()`, indexing a map with
  a missing key, out-of-bounds slice access, and `usize` division by zero) are
  modelled by `Option`-returning functions, where `none` is the panic.
* `HashMap` and `BTreeMap` are modelled as association lists.  For the row map
  the iteration order (ascending by key) is observable through full scans, so
  insertion keeps the list sorted by key, mirroring `BTreeMap`.  The per-index
  maps are only read through `get`/`entry`/`len`/`remove`, whose results do not
  depend on entry order, so a new key is simply appended at the end.
* Rows (the `Row<T>` implementations for `Vec<T>`, slices and `Arc<Vec<T>>`,
  which are all sequences indexed by column number) are modelled as `List T`.
-/

namespace Shortcut

/-! ### Association-list maps -/

/-- `HashMap::get` / `BTreeMap::get`: the value stored under a key
(the first matching entry of the association list). -/
def alGet? {K V : Type} [DecidableEq K] : List (K × V) → K → Option V
  | [], _ => none
  | (k0, v0) :: t, k => if k = k0 then some v0 else alGet? t k

/-- `get_mut` followed by an in-place update: replace the value stored under an
existing key, leaving the map unchanged when the key is absent. -/
def alSet {K V : Type} [DecidableEq K] : List (K × V) → K → V → List (K × V)
  | [], _, _ => []
  | (k0, v0) :: t, k, v => if k = k0 then (k0, v) :: t else (k0, v0) :: alSet t k v

/-- `HashMap::remove` / `BTreeMap::remove`: drop the entry stored under a key. -/
def alErase {K V : Type} [DecidableEq K] : List (K × V) → K → List (K × V)
  | [], _ => []
  | (k0, v0) :: t, k => if k = k0 then t else (k0, v0) :: alErase t k

/-- `map.entry(key).or_insert_with(Vec::new).push(row)`: append a row id to the
bucket stored under `key`, creating the bucket if needed. -/
def alEntryPush {K : Type} [DecidableEq K] : List (K × List Nat) → K → Nat → List (K × List Nat)
  | [], k, r => [(k, [r])]
  | (k0, l) :: t, k, r => if k = k0 then (k0, l ++ [r]) :: t else (k0, l) :: alEntryPush t k r

/-- `HashMap::insert` / replacing insertion: overwrite the value under `k`, or
append a fresh entry when `k` is absent. -/
def alInsertReplace {K V : Type} [DecidableEq K] : List (K × V) → K → V → List (K × V)
  | [], k, v => [(k, v)]
  | (k0, v0) :: t, k, v => if k = k0 then (k0, v) :: t else (k0, v0) :: alInsertReplace t k v

/-- `BTreeMap::insert` for the `Nat`-keyed row map: insertion keeping the
entries sorted in ascending key order (replacing an equal key). -/
def rowsInsert {V : Type} : List (Nat × V) → Nat → V → List (Nat × V)
  | [], k, v => [(k, v)]
  | (k0, v0) :: t, k, v =>
    if k < k0 then (k, v) :: (k0, v0) :: t
    else if k = k0 then (k, v) :: t
    else (k0, v0) :: rowsInsert t k v

/-! ### `cmp.rs`: values, comparisons and conditions -/

/-- `cmp::Value`: a constant literal (the `Cow` owned/borrowed distinction
collapses to a plain value) or a reference to a column of the same row. -/
inductive Value (T : Type) where
  | const : T → Value T
  | column : Nat → Value T

/-- `Value::value`: evaluate against a row.  A column reference that is out of
bounds for the row is an indexing panic (`none`). -/
def Value.value? {T : Type} : Value T → List T → Option T
  | .const v, _ => some v
  | .column i, row => row.get? i

/-- `cmp::Comparison`: currently only equality. -/
inductive Comparison (T : Type) where
  | equal : Value T → Comparison T

/-- `Comparison::matches`: compare the extracted column value for equality
against the `Value` evaluated on the same row. -/
def Comparison.matches? {T : Type} [DecidableEq T] :
    Comparison T → T → List T → Option Bool
  | .equal v, value, row => (v.value? row).map (fun x => decide (value = x))

/-- `cmp::Condition`: a column number paired with a comparison. -/
structure Condition (T : Type) where
  column : Nat
  cmp : Comparison T

/-- `Condition::matches`: extract `row[self.column]` (panicking when the column
is out of bounds) and evaluate `self.cmp` on it. -/
def Condition.matches? {T : Type} [DecidableEq T] (c : Condition T) (row : List T) :
    Option Bool :=
  (row.get? c.column).bind (fun v => c.cmp.matches? v row)

/-- `conds.iter().all(|c| c.matches(row))`, short-circuiting like
`Iterator::all` does. -/
def allMatch? {T : Type} [DecidableEq T] : List (Condition T) → List T → Option Bool
  | [], _ => some true
  | c :: cs, row => (c.matches? row).bind (fun b => if b then allMatch? cs row else some false)

/-! ### `idx.rs`: the two reference index implementations -/

/-- `idx::HashIndex`: a map from value to the list of row ids carrying it, plus
a counter `num` that is incremented by `index`. -/
structure HashIndex (T : Type) where
  num : Nat
  map : List (T × List Nat)

/-- `HashIndex::new`. -/
def HashIndex.new {T : Type} : HashIndex T := ⟨0, []⟩

/-- `HashIndex::lookup`: the bucket stored under `key`, or no rows at all. -/
def HashIndex.lookup {T : Type} [DecidableEq T] (h : HashIndex T) (key : T) : List Nat :=
  (alGet? h.map key).getD []

/-- `HashIndex::index`: push the row id onto `key`'s bucket and bump `num`. -/
def HashIndex.index {T : Type} [DecidableEq T] (h : HashIndex T) (key : T) (row : Nat) :
    HashIndex T :=
  { num := h.num + 1, map := alEntryPush h.map key row }

/-- `Vec::swap_remove i`: overwrite position `i` with the last element and pop
the last element. -/
def swapRemoveAt (l : List Nat) (i : Nat) : List Nat :=
  (l.set i (l.getLastD 0)).dropLast

/-- `iter().position(|&r| r == row)`. -/
def posOf? (row : Nat) : List Nat → Option Nat
  | [] => none
  | x :: t => if x = row then some 0 else (posOf? row t).map (· + 1)

/-- `HashIndex::undex`: swap-remove the row id from `key`'s bucket, dropping
the key when the bucket empties.  `none` models the `unreachable!()` panic hit
when the key is present but the row id is not in its bucket.  Note that `num`
is left untouched. -/
def HashIndex.undex? {T : Type} [DecidableEq T] (h : HashIndex T) (key : T) (row : Nat) :
    Option (HashIndex T) :=
  match alGet? h.map key with
  | none => some h
  | some l =>
    match posOf? row l with
    | none => none
    | some i =>
      let l1 := swapRemoveAt l i
      if l1.isEmpty then some { h with map := alErase h.map key }
      else some { h with map := alSet h.map key l1 }

/-- `HashIndex::estimate`: `num / map.len()`, guarded to return `0` when the
map has no keys. -/
def HashIndex.estimate {T : Type} (h : HashIndex T) : Nat :=
  if 0 < h.map.length then h.num / h.map.length else 0

/-- `idx::BTreeIndex`. -/
structure BTreeIndex (T : Type) where
  num : Nat
  map : List (T × List Nat)

/-- `BTreeIndex::new`. -/
def BTreeIndex.new {T : Type} : BTreeIndex T := ⟨0, []⟩

/-- `BTreeIndex::lookup`. -/
def BTreeIndex.lookup {T : Type} [DecidableEq T] (b : BTreeIndex T) (key : T) : List Nat :=
  (alGet? b.map key).getD []

/-- `BTreeIndex::index`. -/
def BTreeIndex.index {T : Type} [DecidableEq T] (b : BTreeIndex T) (key : T) (row : Nat) :
    BTreeIndex T :=
  { num := b.num + 1, map := alEntryPush b.map key row }

/-- `BTreeIndex::undex`: `retain(|&i| i != row)` on the bucket, adjusting `num`
by the length difference (`num -= l.len(); num += l.len()` around the retain).
The emptied key is NOT removed from the map.  The `usize` subtraction cannot
underflow when `num` is at least the bucket length, which holds in every state
built by `index`/`undex`; `Nat` truncated subtraction is used. -/
def BTreeIndex.undex {T : Type} [DecidableEq T] (b : BTreeIndex T) (key : T) (row : Nat) :
    BTreeIndex T :=
  match alGet? b.map key with
  | none => b
  | some l =>
    { num := b.num - l.length + (l.filter (fun i => decide (i ≠ row))).length,
      map := alSet b.map key (l.filter (fun i => decide (i ≠ row))) }

/-- `BTreeIndex::estimate` is `self.num / self.map.len()` with no guard;
`usize` division panics when the divisor is zero, modelled as `none`. -/
def BTreeIndex.estimate? {T : Type} (b : BTreeIndex T) : Option Nat :=
  if b.map.length = 0 then none else some (b.num / b.map.length)

/-- `idx::Index`: the tagged union over the two reference implementations.
`From<HashIndex>` produces the `Equality` variant and `From<BTreeIndex>` the
`Range` variant; all `EqualityIndex` calls forward to the wrapped index. -/
inductive Index (T : Type) where
  | hash : HashIndex T → Index T
  | btree : BTreeIndex T → Index T

/-- `EqualityIndex::lookup` forwarded through `Index`. -/
def Index.lookup {T : Type} [DecidableEq T] : Index T → T → List Nat
  | .hash h, k => h.lookup k
  | .btree b, k => b.lookup k

/-- `EqualityIndex::index` forwarded through `Index`. -/
def Index.index {T : Type} [DecidableEq T] : Index T → T → Nat → Index T
  | .hash h, k, r => .hash (h.index k r)
  | .btree b, k, r => .btree (b.index k r)

/-- `EqualityIndex::undex` forwarded through `Index`. -/
def Index.undex? {T : Type} [DecidableEq T] : Index T → T → Nat → Option (Index T)
  | .hash h, k, r => (h.undex? k r).map .hash
  | .btree b, k, r => some (.btree (b.undex k r))

/-- `EqualityIndex::estimate` forwarded through `Index`. -/
def Index.estimate? {T : Type} : Index T → Option Nat
  | .hash h => some h.estimate
  | .btree b => b.estimate?

/-! ### `lib.rs`: the `Store` -/

/-- `Store<T>`: the rows keyed by the auto-incremented row id, and the attached
indices keyed by column number. -/
structure Store (T : Type) where
  cols : Nat
  rowid : Nat
  rows : List (Nat × List T)
  indices : List (Nat × Index T)

/-- `Store::new`. -/
def Store.new {T : Type} (cols : Nat) : Store T := ⟨cols, 0, [], []⟩

/-- The per-insert index maintenance loop of `Store::insert`: for each attached
`(column, idx)`, index the row's value at that column under the new row id.
`none` models the panic of `row.index(*column)` on an out-of-bounds column. -/
def indexAll? {T : Type} [DecidableEq T] (row : List T) (rid : Nat) :
    List (Nat × Index T) → Option (List (Nat × Index T))
  | [] => some []
  | (col, idx) :: t =>
    match row.get? col with
    | none => none
    | some v =>
      match indexAll? row rid t with
      | none => none
      | some t' => some ((col, idx.index v rid) :: t')

/-- `Store::insert`: check the column count (`debug_assert_eq!`, modelled as a
guard whose failure is the assertion panic, before anything is stored), feed
every attached index, store the row under `self.rowid`, and bump the counter. -/
def Store.insert? {T : Type} [DecidableEq T] (s : Store T) (row : List T) :
    Option (Store T) :=
  if row.length = s.cols then
    match indexAll? row s.rowid s.indices with
    | none => none
    | some idxs =>
      some { s with
               rowid := s.rowid + 1
               rows := rowsInsert s.rows s.rowid row
               indices := idxs }
  else none

/-- The backfill loop of `Store::index`: feed every stored row, in ascending
row-id order, to the newly attached index. -/
def backfill? {T : Type} [DecidableEq T] (column : Nat) :
    Index T → List (Nat × List T) → Option (Index T)
  | idx, [] => some idx
  | idx, (rid, row) :: t =>
    match row.get? column with
    | none => none
    | some v => backfill? column (idx.index v rid) t

/-- `Store::index`: attach an index on a column, backfilling it from the
current rows; any previously attached index on that column is replaced. -/
def Store.index? {T : Type} [DecidableEq T] (s : Store T) (column : Nat)
    (indexer : Index T) : Option (Store T) :=
  match backfill? column indexer s.rows with
  | none => none
  | some idx => some { s with indices := alInsertReplace s.indices column idx }

/-- The eligible `(constant, index)` pairs of `Store::using_index`, in
condition order: conditions whose column has an attached index and whose
comparison is `Equal(Value::Const(_))`. -/
def Store.eligible {T : Type} [DecidableEq T] (s : Store T) (conds : List (Condition T)) :
    List (T × Index T) :=
  conds.filterMap (fun c =>
    match alGet? s.indices c.column, c.cmp with
    | some idx, .equal (.const v) => some (v, idx)
    | _, _ => none)

/-- The fold of `Iterator::min_by_key` keyed by `estimate()`: the key of every
remaining element is evaluated (so a panicking `estimate()` propagates) and the
first minimum is kept. -/
def minByEstAux {T : Type} (best : T × Index T) (kb : Nat) :
    List (T × Index T) → Option (T × Index T)
  | [] => some best
  | x :: xs =>
    match x.2.estimate? with
    | none => none
    | some kx => if kx < kb then minByEstAux x kx xs else minByEstAux best kb xs

/-- `min_by_key(estimate)` over the eligible pairs: `none` is a panicking
`estimate()`, `some none` an empty candidate list. -/
def minByEst? {T : Type} : List (T × Index T) → Option (Option (T × Index T))
  | [] => some none
  | x :: xs =>
    match x.2.estimate? with
    | none => none
    | some kx => (minByEstAux x kx xs).map some

/-- `Store::using_index`: the candidate row ids — the best eligible index's
`lookup` on the condition's constant, or a full scan of all row ids in
ascending order when no eligible condition exists. -/
def Store.using_index? {T : Type} [DecidableEq T] (s : Store T)
    (conds : List (Condition T)) : Option (List Nat) :=
  match minByEst? (s.eligible conds) with
  | none => none
  | some none => some (s.rows.map Prod.fst)
  | some (some (v, idx)) => some (idx.lookup v)

/-- `self.rows[&rowi]` for each candidate id; a missing id is an indexing
panic. -/
def mapGetRows? {T : Type} (rows : List (Nat × List T)) : List Nat → Option (List (List T))
  | [] => some []
  | rid :: t =>
    match alGet? rows rid with
    | none => none
    | some row =>
      match mapGetRows? rows t with
      | none => none
      | some rs => some (row :: rs)

/-- The verification filter of `find`: keep the rows on which every condition
matches; `none` models a panicking condition evaluation. -/
def filterMatching? {T : Type} [DecidableEq T] (conds : List (Condition T)) :
    List (List T) → Option (List (List T))
  | [] => some []
  | r :: t =>
    match allMatch? conds r with
    | none => none
    | some b =>
      match filterMatching? conds t with
      | none => none
      | some t' => some (if b then r :: t' else t')

/-- `Store::find`: plan via `using_index`, fetch the candidate rows, and keep
exactly those matching every condition. -/
def Store.find? {T : Type} [DecidableEq T] (s : Store T) (conds : List (Condition T)) :
    Option (List (List T)) :=
  match s.using_index? conds with
  | none => none
  | some ids =>
    match mapGetRows? s.rows ids with
    | none => none
    | some rs => filterMatching? conds rs

/-- Pair each candidate id with its row (`(rowi, &self.rows[&rowi])`). -/
def pairRows? {T : Type} (rows : List (Nat × List T)) :
    List Nat → Option (List (Nat × List T))
  | [] => some []
  | rid :: t =>
    match alGet? rows rid with
    | none => none
    | some row =>
      match pairRows? rows t with
      | none => none
      | some t' => some ((rid, row) :: t')

/-- The candidate collection of `delete_filter`: keep the `(rowid, row)` pairs
matching every condition and the extra filter `f` (which, as in the source, is
only evaluated on rows that already match the conditions). -/
def collectMatching? {T : Type} [DecidableEq T] (conds : List (Condition T))
    (f : List T → Bool) : List (Nat × List T) → Option (List (Nat × List T))
  | [] => some []
  | (rid, row) :: t =>
    match allMatch? conds row with
    | none => none
    | some b =>
      match collectMatching? conds f t with
      | none => none
      | some t' => some (if b && f row then (rid, row) :: t' else t')

/-- `self.rows.remove(&rowid).unwrap()` for each collected id in order. -/
def removeAll? {T : Type} : List (Nat × List T) → List (Nat × List T) →
    Option (List (Nat × List T))
  | rows, [] => some rows
  | rows, (rid, _) :: t =>
    match alGet? rows rid with
    | none => none
    | some _ => removeAll? (alErase rows rid) t

/-- The inner undex loop of `delete_filter`: for a single deleted row, call
`undex(row[*col], rowid)` on every attached index. -/
def undexRow? {T : Type} [DecidableEq T] (rid : Nat) (row : List T) :
    List (Nat × Index T) → Option (List (Nat × Index T))
  | [] => some []
  | (col, idx) :: t =>
    match row.get? col with
    | none => none
    | some v =>
      match idx.undex? v rid with
      | none => none
      | some idx' =>
        match undexRow? rid row t with
        | none => none
        | some t' => some ((col, idx') :: t')

/-- The outer undex loop of `delete_filter` over all deleted rows. -/
def undexAll? {T : Type} [DecidableEq T] :
    List (Nat × Index T) → List (Nat × List T) → Option (List (Nat × Index T))
  | idxs, [] => some idxs
  | idxs, (rid, row) :: t =>
    match undexRow? rid row idxs with
    | none => none
    | some idxs' => undexAll? idxs' t

/-- `Store::delete_filter`: plan and collect the matching `(rowid, row)` pairs
before any mutation, then remove each row and undex it from every attached
index using the just-deleted row's own values. -/
def Store.delete_filter? {T : Type} [DecidableEq T] (s : Store T)
    (conds : List (Condition T)) (f : List T → Bool) : Option (Store T) :=
  match s.using_index? conds with
  | none => none
  | some ids =>
    match pairRows? s.rows ids with
    | none => none
    | some pairs =>
      match collectMatching? conds f pairs with
      | none => none
      | some del =>
        match removeAll? s.rows del with
        | none => none
        | some rows' =>
          match undexAll? s.indices del with
          | none => none
          | some idxs' => some { s with rows := rows', indices := idxs' }

/-- `Store::delete`: `delete_filter` with an always-true filter. -/
def Store.delete? {T : Type} [DecidableEq T] (s : Store T)
    (conds : List (Condition T)) : Option (Store T) :=
  s.delete_filter? conds (fun _ => true)

/-- A public store operation, for stating trace properties: `insert`,
`delete_filter` (with its conditions and extra filter), or `index`. -/
inductive Op (T : Type) where
  | ins : List T → Op T
  | del : List (Condition T) → (List T → Bool) → Op T
  | att : Nat → Index T → Op T

/-- Run a sequence of operations from a store, recording the row identifier
assigned by each `insert` (`self.rowid` at the time of the call); `none` if any
operation panics. -/
def runOps {T : Type} [DecidableEq T] : Store T → List (Op T) → Option (Store T × List Nat)
  | s, [] => some (s, [])
  | s, Op.ins row :: t =>
    match s.insert? row with
    | none => none
    | some s1 =>
      match runOps s1 t with
      | none => none
      | some (sf, ids) => some (sf, s.rowid :: ids)
  | s, Op.del conds f :: t =>
    match s.delete_filter? conds f with
    | none => none
    | some s1 => runOps s1 t
  | s, Op.att col idx :: t =>
    match s.index? col idx with
    | none => none
    | some s1 => runOps s1 t

/-! ### Reachable stores and the well-formedness invariant -/

/-- A freshly constructed indexer — `HashIndex::new()` or `BTreeIndex::new()`,
the arguments `Store::index` is exercised with. -/
def Index.Fresh {T : Type} : Index T → Prop
  | .hash h => h.num = 0 ∧ h.map = []
  | .btree b => b.num = 0 ∧ b.map = []

/-- Stores reachable from `Store::new` by non-panicking `insert`,
`delete`/`delete_filter`, and `index` operations (attaching a freshly
constructed indexer on an in-range column). -/
inductive Reachable {T : Type} [DecidableEq T] : Store T → Prop
  | new (cols : Nat) : Reachable (Store.new cols)
  | insert {s s' : Store T} {row : List T} :
      Reachable s → s.insert? row = some s' → Reachable s'
  | delete {s s' : Store T} {conds : List (Condition T)} {f : List T → Bool} :
      Reachable s → s.delete_filter? conds f = some s' → Reachable s'
  | attach {s s' : Store T} {column : Nat} {idx : Index T} :
      Reachable s → column < s.cols → idx.Fresh →
      s.index? column idx = some s' → Reachable s'

/-- The number of times a stored row (if any) should contribute the key `k`
to the index on column `col`: once when its value at `col` is `k`. -/
def rowCount {T : Type} [DecidableEq T] (col : Nat) (k : T) : Option (List T) → Nat
  | some row => if row.get? col = some k then 1 else 0
  | none => 0

/-- The per-index invariant, stated against an abstract row-lookup function:
the pair `(k, rid)` occurs in the index exactly when `rid` is a stored row
whose value at `col` is `k`, and then exactly once. -/
def InvF {T : Type} [DecidableEq T] (col : Nat) (idx : Index T)
    (look : Nat → Option (List T)) : Prop :=
  ∀ (k : T) (rid : Nat), (idx.lookup k).count rid = rowCount col k (look rid)

/-- Representation invariant of an index's underlying map: no duplicate keys. -/
def Index.KeysNodup {T : Type} : Index T → Prop
  | .hash h => (h.map.map Prod.fst).Nodup
  | .btree b => (b.map.map Prod.fst).Nodup

/-- Well-formedness of a store: representation invariants of the maps, the
bounds tying rows, columns and the row-id counter together, and the index
invariant for every attached index. -/
structure Store.WF {T : Type} [DecidableEq T] (s : Store T) : Prop where
  rows_sorted : (s.rows.map Prod.fst).Pairwise (· < ·)
  rows_lt : ∀ p ∈ s.rows, p.1 < s.rowid
  rows_len : ∀ p ∈ s.rows, p.2.length = s.cols
  idx_keys : (s.indices.map Prod.fst).Nodup
  idx_cols : ∀ q ∈ s.indices, q.1 < s.cols
  idx_rep : ∀ q ∈ s.indices, Index.KeysNodup q.2
  idx_inv : ∀ q ∈ s.indices, InvF q.1 q.2 (alGet? s.rows)

/-! ### Facts about the association-list operations -/

section ALFacts

variable {K V : Type} [DecidableEq K]

theorem alGet?_entryPush_self (m : List (K × List Nat)) (k : K) (r : Nat) :
    alGet? (alEntryPush m k r) k = some ((alGet? m k).getD [] ++ [r]) := by
  induction m with
  | nil => simp [alEntryPush, alGet?]
  | cons p t ih =>
    obtain ⟨k0, l⟩ := p
    by_cases h : k = k0
    · subst h; simp [alEntryPush, alGet?]
    · have h' : ¬ (k = k0) := h
      simp [alEntryPush, alGet?, h', ih]

theorem alGet?_entryPush_ne (m : List (K × List Nat)) {k k' : K} (r : Nat) (h : k' ≠ k) :
    alGet? (alEntryPush m k r) k' = alGet? m k' := by
  induction m with
  | nil => simp [alEntryPush, alGet?, h]
  | cons p t ih =>
    obtain ⟨k0, l⟩ := p
    by_cases h0 : k = k0
    · subst h0; simp [alEntryPush, alGet?, h]
    · by_cases h1 : k' = k0
      · subst h1; simp [alEntryPush, alGet?, h0]
      · simp [alEntryPush, alGet?, h0, h1, ih]

theorem keys_entryPush (m : List (K × List Nat)) (k : K) (r : Nat) :
    (alEntryPush m k r).map Prod.fst =
      if k ∈ m.map Prod.fst then m.map Prod.fst else m.map Prod.fst ++ [k] := by
  induction m with
  | nil => simp [alEntryPush]
  | cons p t ih =>
    obtain ⟨k0, l⟩ := p
    by_cases h : k = k0
    · subst h; simp [alEntryPush]
    · by_cases hm : k ∈ t.map Prod.fst
      · simp [alEntryPush, h, hm, ih, Ne.symm h]
      · have : ¬ (k = k0 ∨ k ∈ t.map Prod.fst) := by
          rintro (h' | h') <;> [exact h h'; exact hm h']
        simp [alEntryPush, h, hm, ih, this]

theorem keys_entryPush_nodup (m : List (K × List Nat)) (k : K) (r : Nat)
    (hnd : (m.map Prod.fst).Nodup) : ((alEntryPush m k r).map Prod.fst).Nodup := by
  rw [keys_entryPush]
  by_cases h : k ∈ m.map Prod.fst
  · simpa [h] using hnd
  · rw [if_neg h, List.nodup_append]
    exact ⟨hnd, by simp, fun a ha hk => h ((List.mem_singleton.mp hk) ▸ ha)⟩

theorem alGet?_set_self (m : List (K × V)) (k : K) (v : V) :
    alGet? (alSet m k v) k = (alGet? m k).map (fun _ => v) := by
  induction m with
  | nil => simp [alSet, alGet?]
  | cons p t ih =>
    obtain ⟨k0, v0⟩ := p
    by_cases h : k = k0
    · subst h; simp [alSet, alGet?]
    · simp [alSet, alGet?, h, ih]

theorem alGet?_set_ne (m : List (K × V)) {k k' : K} (v : V) (h : k' ≠ k) :
    alGet? (alSet m k v) k' = alGet? m k' := by
  induction m with
  | nil => simp [alSet, alGet?]
  | cons p t ih =>
    obtain ⟨k0, v0⟩ := p
    by_cases h0 : k = k0
    · subst h0; simp [alSet, alGet?, h]
    · by_cases h1 : k' = k0
      · subst h1; simp [alSet, alGet?, h0]
      · simp [alSet, alGet?, h0, h1, ih]

theorem keys_set (m : List (K × V)) (k : K) (v : V) :
    (alSet m k v).map Prod.fst = m.map Prod.fst := by
  induction m with
  | nil => simp [alSet]
  | cons p t ih =>
    obtain ⟨k0, v0⟩ := p
    by_cases h : k = k0
    · subst h; simp [alSet]
    · simp [alSet, h, ih]

theorem alGet?_eq_none_of_not_mem {m : List (K × V)} {k : K}
    (h : k ∉ m.map Prod.fst) : alGet? m k = none := by
  induction m with
  | nil => simp [alGet?]
  | cons p t ih =>
    obtain ⟨k0, v0⟩ := p
    simp only [List.map_cons, List.mem_cons, not_or] at h
    simp [alGet?, h.1, ih h.2]

theorem alErase_sublist (m : List (K × V)) (k : K) : (alErase m k).Sublist m := by
  induction m with
  | nil => simp [alErase]
  | cons p t ih =>
    obtain ⟨k0, v0⟩ := p
    by_cases h : k = k0
    · rw [show alErase ((k0, v0) :: t) k = t by simp [alErase, h]]
      exact List.sublist_cons_self (k0, v0) t
    · simpa [alErase, h] using ih.cons₂ (k0, v0)

theorem alGet?_erase_self (m : List (K × V)) (k : K)
    (hnd : (m.map Prod.fst).Nodup) : alGet? (alErase m k) k = none := by
  induction m with
  | nil => simp [alErase, alGet?]
  | cons p t ih =>
    obtain ⟨k0, v0⟩ := p
    simp only [List.map_cons, List.nodup_cons] at hnd
    by_cases h : k = k0
    · subst h
      have he : alErase ((k, v0) :: t) k = t := by simp [alErase]
      rw [he]
      exact alGet?_eq_none_of_not_mem hnd.1
    · simp [alErase, alGet?, h, ih hnd.2]

theorem alGet?_erase_ne (m : List (K × V)) {k k' : K} (h : k' ≠ k) :
    alGet? (alErase m k) k' = alGet? m k' := by
  induction m with
  | nil => simp [alErase]
  | cons p t ih =>
    obtain ⟨k0, v0⟩ := p
    by_cases h0 : k = k0
    · subst h0; simp [alErase, alGet?, h]
    · by_cases h1 : k' = k0
      · subst h1; simp [alErase, alGet?, h0]
      · simp [alErase, alGet?, h0, h1, ih]

theorem mem_keys_of_alGet? {m : List (K × V)} {k : K} {v : V}
    (h : alGet? m k = some v) : k ∈ m.map Prod.fst := by
  induction m with
  | nil => simp [alGet?] at h
  | cons p t ih =>
    obtain ⟨k0, v0⟩ := p
    by_cases h0 : k = k0
    · subst h0; simp
    · simp only [alGet?, if_neg h0] at h
      simpa using Or.inr (ih h)

theorem alGet?_mem {m : List (K × V)} {k : K} {v : V}
    (h : alGet? m k = some v) : (k, v) ∈ m := by
  induction m with
  | nil => simp [alGet?] at h
  | cons p t ih =>
    obtain ⟨k0, v0⟩ := p
    by_cases h0 : k = k0
    · subst h0
      simp [alGet?] at h
      simp [h]
    · simp only [alGet?, if_neg h0] at h
      exact List.mem_cons_of_mem _ (ih h)

theorem alGet?_isSome_of_mem_keys {m : List (K × V)} {k : K}
    (h : k ∈ m.map Prod.fst) : (alGet? m k).isSome := by
  induction m with
  | nil => simp at h
  | cons p t ih =>
    obtain ⟨k0, v0⟩ := p
    by_cases h0 : k = k0
    · subst h0; simp [alGet?]
    · simp only [List.map_cons, List.mem_cons] at h
      rcases h with h | h
      · exact absurd h h0
      · simp [alGet?, h0, ih h]

theorem alGet?_of_mem_nodup {m : List (K × V)} {k : K} {v : V}
    (hnd : (m.map Prod.fst).Nodup) (h : (k, v) ∈ m) : alGet? m k = some v := by
  induction m with
  | nil => simp at h
  | cons p t ih =>
    obtain ⟨k0, v0⟩ := p
    simp only [List.map_cons, List.nodup_cons] at hnd
    rcases List.mem_cons.mp h with hh | hh
    · injection hh with hk hv
      subst hk
      subst hv
      simp [alGet?]
    · have hk : k ≠ k0 := by
        rintro rfl
        exact hnd.1 (List.mem_map.mpr ⟨(k, v), hh, rfl⟩)
      simp [alGet?, hk, ih hnd.2 hh]

theorem keys_insertReplace (m : List (K × V)) (k : K) (v : V) :
    (alInsertReplace m k v).map Prod.fst =
      if k ∈ m.map Prod.fst then m.map Prod.fst else m.map Prod.fst ++ [k] := by
  induction m with
  | nil => simp [alInsertReplace]
  | cons p t ih =>
    obtain ⟨k0, v0⟩ := p
    by_cases h : k = k0
    · subst h; simp [alInsertReplace]
    · by_cases hm : k ∈ t.map Prod.fst
      · simp [alInsertReplace, h, hm, ih, Ne.symm h]
      · have : ¬ (k = k0 ∨ k ∈ t.map Prod.fst) := by
          rintro (h' | h') <;> [exact h h'; exact hm h']
        simp [alInsertReplace, h, hm, ih, this]

theorem keys_insertReplace_nodup (m : List (K × V)) (k : K) (v : V)
    (hnd : (m.map Prod.fst).Nodup) : ((alInsertReplace m k v).map Prod.fst).Nodup := by
  rw [keys_insertReplace]
  by_cases h : k ∈ m.map Prod.fst
  · simpa [h] using hnd
  · rw [if_neg h, List.nodup_append]
    exact ⟨hnd, by simp, fun a ha hk => h ((List.mem_singleton.mp hk) ▸ ha)⟩

theorem alGet?_insertReplace_self (m : List (K × V)) (k : K) (v : V) :
    alGet? (alInsertReplace m k v) k = some v := by
  induction m with
  | nil => simp [alInsertReplace, alGet?]
  | cons p t ih =>
    obtain ⟨k0, v0⟩ := p
    by_cases h : k = k0
    · subst h; simp [alInsertReplace, alGet?]
    · simp [alInsertReplace, alGet?, h, ih]

theorem alGet?_insertReplace_ne (m : List (K × V)) {k k' : K} (v : V) (h : k' ≠ k) :
    alGet? (alInsertReplace m k v) k' = alGet? m k' := by
  induction m with
  | nil => simp [alInsertReplace, alGet?, h]
  | cons p t ih =>
    obtain ⟨k0, v0⟩ := p
    by_cases h0 : k = k0
    · subst h0; simp [alInsertReplace, alGet?, h]
    · by_cases h1 : k' = k0
      · subst h1; simp [alInsertReplace, alGet?, h0]
      · simp [alInsertReplace, alGet?, h0, h1, ih]

theorem mem_insertReplace {m : List (K × V)} {k : K} {v : V} {q : K × V}
    (h : q ∈ alInsertReplace m k v) : q ∈ m ∨ q = (k, v) := by
  induction m with
  | nil => simpa [alInsertReplace] using h
  | cons p t ih =>
    obtain ⟨k0, v0⟩ := p
    by_cases h0 : k = k0
    · subst h0
      simp only [alInsertReplace, if_true, eq_self_iff_true, if_pos] at h
      rcases List.mem_cons.mp h with h1 | h1
      · exact Or.inr h1
      · exact Or.inl (List.mem_cons_of_mem _ h1)
    · simp only [alInsertReplace, if_neg h0, List.mem_cons] at h
      rcases h with h1 | h1
      · exact Or.inl (by simp [h1])
      · rcases ih h1 with h2 | h2
        · exact Or.inl (List.mem_cons_of_mem _ h2)
        · exact Or.inr h2

theorem rowsInsert_append (m : List (Nat × V)) (k : Nat) (v : V)
    (h : ∀ x ∈ m.map Prod.fst, x < k) : rowsInsert m k v = m ++ [(k, v)] := by
  induction m with
  | nil => simp [rowsInsert]
  | cons p t ih =>
    obtain ⟨k0, v0⟩ := p
    have h0 : k0 < k := h k0 (by simp)
    have h1 : ¬ k < k0 := by omega
    have h2 : ¬ k = k0 := by omega
    simp only [rowsInsert, if_neg h1, if_neg h2, List.cons_append, List.cons.injEq, true_and]
    exact ih (fun x hx => h x (by simp [hx]))

end ALFacts

/-! ### Facts about `swap_remove` and `position` -/

theorem posOf?_mem {row : Nat} : ∀ {l : List Nat} {i : Nat},
    posOf? row l = some i → row ∈ l := by
  intro l
  induction l with
  | nil => intro i h; simp [posOf?] at h
  | cons x t ih =>
    intro i h
    by_cases hx : x = row
    · simp [hx]
    · simp only [posOf?, if_neg hx, Option.map_eq_some'] at h
      obtain ⟨j, hj, _⟩ := h
      exact List.mem_cons_of_mem _ (ih hj)

theorem posOf?_some_of_mem {row : Nat} : ∀ {l : List Nat},
    row ∈ l → ∃ i, posOf? row l = some i := by
  intro l
  induction l with
  | nil => intro h; simp at h
  | cons x t ih =>
    intro h
    by_cases hx : x = row
    · exact ⟨0, by simp [posOf?, hx]⟩
    · have : row ∈ t := by
        rcases List.mem_cons.mp h with h | h
        · exact absurd h.symm hx
        · exact h
      obtain ⟨j, hj⟩ := ih this
      exact ⟨j + 1, by simp [posOf?, hx, hj]⟩

theorem dropLast_cons_of_ne_nil {α : Type} (x : α) {l : List α} (h : l ≠ []) :
    (x :: l).dropLast = x :: l.dropLast := by
  cases l with
  | nil => exact absurd rfl h
  | cons y t => rfl

theorem getLastD_of_ne_nil {α : Type} {l : List α} (h : l ≠ []) (a b : α) :
    l.getLastD a = l.getLastD b := by
  rw [List.getLastD_eq_getLast?, List.getLastD_eq_getLast?, List.getLast?_eq_getLast l h]
  rfl

theorem getLastD_cons_dropLast_perm {α : Type} {l : List α} (h : l ≠ []) (a : α) :
    (l.getLastD a :: l.dropLast).Perm l := by
  have h2 : l.getLastD a = l.getLast h := by
    rw [List.getLastD_eq_getLast?, List.getLast?_eq_getLast l h]; rfl
  rw [h2]
  have h1 : l.dropLast ++ [l.getLast h] = l := List.dropLast_append_getLast h
  have h3 : ([l.getLast h] ++ l.dropLast).Perm (l.dropLast ++ [l.getLast h]) :=
    List.perm_append_comm
  have h3' : (l.getLast h :: l.dropLast).Perm (l.dropLast ++ [l.getLast h]) := by
    simpa using h3
  have h4 : (l.dropLast ++ [l.getLast h]).Perm l := by rw [h1]
  exact h3'.trans h4

theorem swapRemoveAt_cons_succ {x : Nat} {t : List Nat} (ht : t ≠ []) (j : Nat) :
    swapRemoveAt (x :: t) (j + 1) = x :: swapRemoveAt t j := by
  unfold swapRemoveAt
  rw [List.set_cons_succ]
  have h1 : (x :: t).getLastD 0 = t.getLastD 0 := by
    rw [List.getLastD_cons]
    exact getLastD_of_ne_nil ht x 0
  rw [h1]
  have h2 : t.set j (t.getLastD 0) ≠ [] := by
    intro hcon
    have := congrArg List.length hcon
    simp only [List.length_set, List.length_nil] at this
    exact ht (List.length_eq_zero.mp this)
  exact dropLast_cons_of_ne_nil x h2

theorem swapRemoveAt_perm {row : Nat} : ∀ {l : List Nat} {i : Nat},
    posOf? row l = some i → (row :: swapRemoveAt l i).Perm l := by
  intro l
  induction l with
  | nil => intro i h; simp [posOf?] at h
  | cons x t ih =>
    intro i h
    by_cases hx : x = row
    · subst hx
      simp [posOf?] at h
      subst h
      apply List.Perm.cons x
      cases t with
      | nil => simp [swapRemoveAt]
      | cons c t' =>
        have hne : (c :: t') ≠ [] := List.cons_ne_nil c t'
        have : swapRemoveAt (x :: c :: t') 0 =
            (c :: t').getLastD 0 :: (c :: t').dropLast := by
          unfold swapRemoveAt
          rw [show (x :: c :: t').set 0 ((x :: c :: t').getLastD 0) =
              (x :: c :: t').getLastD 0 :: c :: t' from rfl]
          rw [dropLast_cons_of_ne_nil _ hne]
          rw [List.getLastD_cons]
          rw [getLastD_of_ne_nil hne x 0]
        rw [this]
        exact getLastD_cons_dropLast_perm hne 0
    · simp only [posOf?, if_neg hx, Option.map_eq_some'] at h
      obtain ⟨j, hj, hi⟩ := h
      subst hi
      have ht : t ≠ [] := by
        intro hcon
        rw [hcon] at hj
        simp [posOf?] at hj
      rw [swapRemoveAt_cons_succ ht j]
      have hsw : (row :: x :: swapRemoveAt t j).Perm (x :: row :: swapRemoveAt t j) :=
        List.Perm.swap x row _
      exact hsw.trans (List.Perm.cons x (ih hj))

theorem count_swapRemoveAt {l : List Nat} {row i : Nat}
    (h : posOf? row l = some i) (a : Nat) :
    (swapRemoveAt l i).count a + (if row = a then 1 else 0) = l.count a := by
  have hp := (swapRemoveAt_perm h).count_eq a
  rw [List.count_cons] at hp
  simpa [beq_iff_eq] using hp

/-! ### Facts about the index implementations -/

section IndexFacts

variable {T : Type} [DecidableEq T]

theorem hash_lookup_index (h : HashIndex T) (v : T) (rid : Nat) (k : T) :
    (h.index v rid).lookup k = if k = v then h.lookup k ++ [rid] else h.lookup k := by
  unfold HashIndex.lookup HashIndex.index
  by_cases hk : k = v
  · subst hk
    simp [alGet?_entryPush_self]
  · rw [if_neg hk, alGet?_entryPush_ne h.map rid hk]

theorem btree_lookup_index (b : BTreeIndex T) (v : T) (rid : Nat) (k : T) :
    (b.index v rid).lookup k = if k = v then b.lookup k ++ [rid] else b.lookup k := by
  unfold BTreeIndex.lookup BTreeIndex.index
  by_cases hk : k = v
  · subst hk
    simp [alGet?_entryPush_self]
  · rw [if_neg hk, alGet?_entryPush_ne b.map rid hk]

theorem Index.lookup_index (idx : Index T) (v : T) (rid : Nat) (k : T) :
    (idx.index v rid).lookup k = if k = v then idx.lookup k ++ [rid] else idx.lookup k := by
  cases idx with
  | hash h => exact hash_lookup_index h v rid k
  | btree b => exact btree_lookup_index b v rid k

theorem Index.keysNodup_index {idx : Index T} (hnd : idx.KeysNodup) (v : T) (rid : Nat) :
    (idx.index v rid).KeysNodup := by
  cases idx with
  | hash h =>
    show ((alEntryPush h.map v rid).map Prod.fst).Nodup
    exact keys_entryPush_nodup h.map v rid hnd
  | btree b =>
    show ((alEntryPush b.map v rid).map Prod.fst).Nodup
    exact keys_entryPush_nodup b.map v rid hnd

theorem hash_undex?_spec (h : HashIndex T) (key : T) (rid : Nat)
    (hnd : (h.map.map Prod.fst).Nodup) (hmem : rid ∈ h.lookup key) :
    ∃ h', h.undex? key rid = some h' ∧ (h'.map.map Prod.fst).Nodup ∧ h'.num = h.num ∧
      ∀ (k : T) (a : Nat),
        (h'.lookup k).count a + (if k = key ∧ a = rid then 1 else 0) =
          (h.lookup k).count a := by
  unfold HashIndex.lookup at hmem
  cases hget : alGet? h.map key with
  | none => rw [hget] at hmem; simp at hmem
  | some l =>
    rw [hget] at hmem
    simp only [Option.getD_some] at hmem
    obtain ⟨i, hi⟩ := posOf?_some_of_mem hmem
    have hcnt := fun a => count_swapRemoveAt hi a
    have hlookup : ∀ k : T, h.lookup k = if k = key then l else h.lookup k := by
      intro k
      by_cases hk : k = key
      · rw [if_pos hk, hk]
        unfold HashIndex.lookup
        rw [hget]
        rfl
      · rw [if_neg hk]
    by_cases hemp : (swapRemoveAt l i).isEmpty = true
    · refine ⟨{ h with map := alErase h.map key }, ?_, ?_, rfl, ?_⟩
      · simp only [HashIndex.undex?, hget, hi]
        rw [if_pos hemp]
      · exact List.Nodup.sublist ((alErase_sublist h.map key).map Prod.fst) hnd
      · intro k a
        have hsw : swapRemoveAt l i = [] := by
          simpa using hemp
        have hL : HashIndex.lookup { h with map := alErase h.map key } k =
            if k = key then [] else h.lookup k := by
          by_cases hk : k = key
          · rw [if_pos hk, hk]
            unfold HashIndex.lookup
            rw [alGet?_erase_self h.map key hnd]
            rfl
          · rw [if_neg hk]
            unfold HashIndex.lookup
            rw [alGet?_erase_ne h.map hk]
        rw [hL]
        by_cases hk : k = key
        · rw [if_pos hk, hk]
          have h2 := hcnt a
          rw [hsw] at h2
          simp only [List.count_nil, Nat.zero_add] at h2 ⊢
          rw [hlookup key, if_pos rfl, ← h2]
          by_cases ha : a = rid
          · simp [ha]
          · simp [ha, Ne.symm ha]
        · rw [if_neg hk]
          simp [hk]
    · refine ⟨{ h with map := alSet h.map key (swapRemoveAt l i) }, ?_, ?_, rfl, ?_⟩
      · simp only [HashIndex.undex?, hget, hi]
        rw [if_neg hemp]
      · rw [keys_set]; exact hnd
      · intro k a
        have hL : HashIndex.lookup { h with map := alSet h.map key (swapRemoveAt l i) } k =
            if k = key then swapRemoveAt l i else h.lookup k := by
          by_cases hk : k = key
          · rw [if_pos hk, hk]
            unfold HashIndex.lookup
            rw [alGet?_set_self, hget]
            rfl
          · rw [if_neg hk]
            unfold HashIndex.lookup
            rw [alGet?_set_ne h.map _ hk]
        rw [hL]
        by_cases hk : k = key
        · rw [if_pos hk, hk]
          rw [hlookup key, if_pos rfl, ← hcnt a]
          by_cases ha : a = rid
          · simp [ha]
          · simp [ha, Ne.symm ha]
        · rw [if_neg hk]
          simp [hk]

theorem BTreeIndex.undex_count (b : BTreeIndex T) (key : T) (rid : Nat) (k : T) (a : Nat) :
    ((b.undex key rid).lookup k).count a =
      if k = key ∧ a = rid then 0 else (b.lookup k).count a := by
  cases hget : alGet? b.map key with
  | none =>
    have hundex : b.undex key rid = b := by
      unfold BTreeIndex.undex
      rw [hget]
    rw [hundex]
    by_cases hcond : k = key ∧ a = rid
    · rw [if_pos hcond]
      obtain ⟨hk, ha⟩ := hcond
      rw [hk, ha]
      show ((alGet? b.map key).getD []).count rid = 0
      rw [hget]
      rfl
    · rw [if_neg hcond]
  | some l =>
    have hundex : b.undex key rid =
        { num := b.num - l.length + (l.filter (fun i => decide (i ≠ rid))).length,
          map := alSet b.map key (l.filter (fun i => decide (i ≠ rid))) } := by
      unfold BTreeIndex.undex
      rw [hget]
    rw [hundex]
    have hL : ∀ k0 : T, BTreeIndex.lookup
        { num := b.num - l.length + (l.filter (fun i => decide (i ≠ rid))).length,
          map := alSet b.map key (l.filter (fun i => decide (i ≠ rid))) } k0 =
        if k0 = key then l.filter (fun i => decide (i ≠ rid)) else b.lookup k0 := by
      intro k0
      by_cases hk : k0 = key
      · rw [if_pos hk, hk]
        show (alGet? (alSet b.map key _) key).getD [] = _
        rw [alGet?_set_self, hget]
        rfl
      · rw [if_neg hk]
        show (alGet? (alSet b.map key _) k0).getD [] = _
        rw [alGet?_set_ne b.map _ hk]
        rfl
    rw [hL k]
    by_cases hk : k = key
    · rw [if_pos hk]
      by_cases ha : a = rid
      · rw [if_pos ⟨hk, ha⟩, ha]
        rw [List.count_eq_zero]
        intro hcon
        have h2 := (List.mem_filter.mp hcon).2
        simp at h2
      · rw [if_neg (fun hcon => ha hcon.2)]
        rw [hk]
        have hLK : b.lookup key = l := by
          show (alGet? b.map key).getD [] = l
          rw [hget]
          rfl
        rw [hLK]
        exact List.count_filter (by simpa using ha)
    · rw [if_neg hk, if_neg (fun hcon => hk hcon.1)]

theorem BTreeIndex.undex_keys (b : BTreeIndex T) (key : T) (rid : Nat) :
    (b.undex key rid).map.map Prod.fst = b.map.map Prod.fst := by
  unfold BTreeIndex.undex
  cases hget : alGet? b.map key with
  | none => rfl
  | some l => exact keys_set b.map key _

theorem Index.undex?_spec (idx : Index T) (key : T) (rid : Nat)
    (hnd : idx.KeysNodup) (hc : (idx.lookup key).count rid = 1) :
    ∃ idx', idx.undex? key rid = some idx' ∧ idx'.KeysNodup ∧
      ∀ (k : T) (a : Nat),
        (idx'.lookup k).count a =
          if k = key ∧ a = rid then 0 else (idx.lookup k).count a := by
  cases idx with
  | hash h =>
    have hmem : rid ∈ h.lookup key := by
      have : 0 < (h.lookup key).count rid := by
        have hc' : (h.lookup key).count rid = 1 := hc
        omega
      exact List.count_pos_iff.mp this
    obtain ⟨h', heq, hnd', _, hcount⟩ := hash_undex?_spec h key rid hnd hmem
    refine ⟨.hash h', ?_, hnd', ?_⟩
    · show (h.undex? key rid).map Index.hash = some (Index.hash h')
      rw [heq]
      rfl
    · intro k a
      have h2 := hcount k a
      by_cases hk : k = key ∧ a = rid
      · rw [if_pos hk] at h2 ⊢
        obtain ⟨rfl, rfl⟩ := hk
        have h3 : (Index.lookup (.hash h) k).count a = 1 := hc
        have h4 : (HashIndex.lookup h' k).count a + 1 = (h.lookup k).count a := h2
        have h5 : (h.lookup k).count a = 1 := h3
        show (HashIndex.lookup h' k).count a = 0
        omega
      · rw [if_neg hk] at h2 ⊢
        show (HashIndex.lookup h' k).count a = (HashIndex.lookup h k).count a
        omega
  | btree b =>
    refine ⟨.btree (b.undex key rid), rfl, ?_, ?_⟩
    · show ((b.undex key rid).map.map Prod.fst).Nodup
      rw [BTreeIndex.undex_keys]
      exact hnd
    · intro k a
      exact BTreeIndex.undex_count b key rid k a

end IndexFacts

/-! ### Facts about the index invariant -/

section InvFFacts

variable {T : Type} [DecidableEq T]

theorem InvF.congr {col : Nat} {idx : Index T} {look look' : Nat → Option (List T)}
    (h : ∀ r, look r = look' r) (hinv : InvF col idx look) : InvF col idx look' := by
  intro k a
  rw [← h a]
  exact hinv k a

omit [DecidableEq T] in
theorem Index.fresh_keysNodup {idx : Index T} (hf : idx.Fresh) : idx.KeysNodup := by
  cases idx with
  | hash h => show (h.map.map Prod.fst).Nodup; rw [hf.2]; simp
  | btree b => show (b.map.map Prod.fst).Nodup; rw [hf.2]; simp

theorem InvF.fresh {col : Nat} {idx : Index T} (hf : idx.Fresh) :
    InvF col idx (fun _ => none) := by
  intro k a
  cases idx with
  | hash h =>
    show (HashIndex.lookup h k).count a = 0
    unfold HashIndex.lookup
    rw [hf.2]
    simp [alGet?]
  | btree b =>
    show (BTreeIndex.lookup b k).count a = 0
    unfold BTreeIndex.lookup
    rw [hf.2]
    simp [alGet?]

theorem InvF.index {col : Nat} {idx : Index T} {look : Nat → Option (List T)}
    (hinv : InvF col idx look) {rid : Nat} (hfresh : look rid = none)
    {row : List T} {v : T} (hv : row.get? col = some v) :
    InvF col (idx.index v rid) (fun r => if r = rid then some row else look r) := by
  intro k a
  rw [Index.lookup_index]
  show _ = rowCount col k (if a = rid then some row else look a)
  by_cases ha : a = rid
  · subst ha
    rw [if_pos rfl]
    have h0 := hinv k a
    rw [hfresh] at h0
    simp only [rowCount] at h0
    simp only [rowCount]
    by_cases hk : k = v
    · rw [if_pos hk, List.count_append, h0, if_pos (by rw [hv, hk])]
      simp
    · rw [if_neg hk, h0,
        if_neg (by rw [hv]; intro hcon; exact hk (Option.some.inj hcon).symm)]
  · rw [if_neg ha]
    by_cases hk : k = v
    · rw [if_pos hk, List.count_append]
      have hz : List.count a [rid] = 0 := List.count_eq_zero.mpr (by simp [ha])
      rw [hz, Nat.add_zero]
      exact hinv k a
    · rw [if_neg hk]
      exact hinv k a

theorem InvF.undex {col : Nat} {idx : Index T} {look : Nat → Option (List T)}
    (hinv : InvF col idx look) (hnd : idx.KeysNodup) {rid : Nat} {row : List T}
    (hrow : look rid = some row) {v : T} (hv : row.get? col = some v) :
    ∃ idx', idx.undex? v rid = some idx' ∧ idx'.KeysNodup ∧
      InvF col idx' (fun r => if r = rid then none else look r) := by
  have hc : (idx.lookup v).count rid = 1 := by
    have h0 := hinv v rid
    rw [hrow] at h0
    simp only [rowCount] at h0
    rw [h0, if_pos hv]
  obtain ⟨idx', heq, hnd', hcount⟩ := Index.undex?_spec idx v rid hnd hc
  refine ⟨idx', heq, hnd', ?_⟩
  intro k a
  rw [hcount k a]
  show _ = rowCount col k (if a = rid then none else look a)
  by_cases ha : a = rid
  · subst ha
    rw [if_pos rfl]
    by_cases hk : k = v
    · rw [if_pos ⟨hk, rfl⟩]
      rfl
    · rw [if_neg (fun hcon => hk hcon.1)]
      have h0 := hinv k a
      rw [hrow] at h0
      rw [h0]
      simp only [rowCount]
      rw [if_neg (by rw [hv]; intro hcon; exact hk (Option.some.inj hcon).symm)]
  · rw [if_neg ha, if_neg (fun hcon : k = v ∧ a = rid => ha hcon.2)]
    exact hinv k a

end InvFFacts

/-! ### Facts about the store operation stages -/

section StageFacts

variable {T : Type} [DecidableEq T]

omit [DecidableEq T] in
theorem get?_isSome_of_lt {l : List T} {i : Nat} (h : i < l.length) :
    ∃ v, l.get? i = some v :=
  ⟨l.get ⟨i, h⟩, List.get?_eq_get h⟩

theorem alGet?_append_fresh {K V : Type} [DecidableEq K] {m : List (K × V)} {k : K}
    (hk : alGet? m k = none) (v : V) (r : K) :
    alGet? (m ++ [(k, v)]) r = if r = k then some v else alGet? m r := by
  induction m with
  | nil => simp [alGet?]
  | cons p t ih =>
    obtain ⟨k0, v0⟩ := p
    have hk0 : ¬ (k = k0) := by
      intro hcon
      rw [show alGet? ((k0, v0) :: t) k = some v0 by simp [alGet?, hcon]] at hk
      cases hk
    rw [show alGet? ((k0, v0) :: t) k = alGet? t k by simp [alGet?, hk0]] at hk
    by_cases hr : r = k0
    · rw [hr]
      rw [show ((k0, v0) :: t) ++ [(k, v)] = (k0, v0) :: (t ++ [(k, v)]) from rfl]
      rw [show alGet? ((k0, v0) :: (t ++ [(k, v)])) k0 = some v0 by simp [alGet?]]
      rw [if_neg (fun hcon => hk0 hcon.symm)]
      simp [alGet?]
    · rw [show ((k0, v0) :: t) ++ [(k, v)] = (k0, v0) :: (t ++ [(k, v)]) from rfl]
      rw [show alGet? ((k0, v0) :: (t ++ [(k, v)])) r = alGet? (t ++ [(k, v)]) r by
        simp [alGet?, hr]]
      rw [ih hk]
      by_cases hrk : r = k
      · simp [hrk]
      · simp [alGet?, hrk, hr]

theorem indexAll?_keys {row : List T} {rid : Nat} :
    ∀ {idxs idxs' : List (Nat × Index T)}, indexAll? row rid idxs = some idxs' →
      idxs'.map Prod.fst = idxs.map Prod.fst := by
  intro idxs
  induction idxs with
  | nil => intro idxs' h; simp [indexAll?] at h; simp [h.symm]
  | cons q t ih =>
    intro idxs' h
    obtain ⟨col, idx⟩ := q
    cases hv : row.get? col with
    | none => rw [indexAll?, hv] at h; cases h
    | some v =>
      rw [indexAll?, hv] at h
      cases ht : indexAll? row rid t with
      | none => rw [ht] at h; cases h
      | some t' =>
        rw [ht] at h
        injection h with h
        rw [← h]
        simp [ih ht]

theorem indexAll?_mem {row : List T} {rid : Nat} :
    ∀ {idxs idxs' : List (Nat × Index T)}, indexAll? row rid idxs = some idxs' →
      ∀ q' ∈ idxs', ∃ idx v, (q'.1, idx) ∈ idxs ∧ row.get? q'.1 = some v ∧
        q'.2 = idx.index v rid := by
  intro idxs
  induction idxs with
  | nil =>
    intro idxs' h
    simp only [indexAll?, Option.some.injEq] at h
    intro q' hq'
    rw [← h] at hq'
    cases hq'
  | cons q t ih =>
    intro idxs' h
    obtain ⟨col, idx⟩ := q
    cases hv : row.get? col with
    | none => rw [indexAll?, hv] at h; cases h
    | some v =>
      rw [indexAll?, hv] at h
      cases ht : indexAll? row rid t with
      | none => rw [ht] at h; cases h
      | some t' =>
        rw [ht] at h
        injection h with h
        intro q' hq'
        rw [← h] at hq'
        rcases List.mem_cons.mp hq' with h1 | h1
        · exact ⟨idx, v, by rw [h1]; simp, by rw [h1]; simpa using hv, by rw [h1]⟩
        · obtain ⟨idx0, v0, hmem, hv0, heq⟩ := ih ht q' h1
          exact ⟨idx0, v0, List.mem_cons_of_mem _ hmem, hv0, heq⟩

theorem backfill?_spec (col : Nat) :
    ∀ (todo : List (Nat × List T)) (idx : Index T) (look : Nat → Option (List T)),
      idx.KeysNodup → InvF col idx look →
      ((todo.map Prod.fst).Nodup) →
      (∀ p ∈ todo, look p.1 = none) →
      (∀ p ∈ todo, ∃ v, p.2.get? col = some v) →
      ∃ idx', backfill? col idx todo = some idx' ∧ idx'.KeysNodup ∧
        InvF col idx' (fun r =>
          match alGet? todo r with
          | some row => some row
          | none => look r) := by
  intro todo
  induction todo with
  | nil =>
    intro idx look hnd hinv _ _ _
    exact ⟨idx, rfl, hnd, InvF.congr (fun r => by simp [alGet?]) hinv⟩
  | cons p t ih =>
    intro idx look hnd hinv hnodup hlook hvals
    obtain ⟨rid, row⟩ := p
    obtain ⟨v, hv0⟩ := hvals (rid, row) (by simp)
    have hv : row.get? col = some v := hv0
    have hfresh : look rid = none := hlook (rid, row) (by simp)
    have hinv1 := InvF.index hinv hfresh hv
    have hnd1 := Index.keysNodup_index hnd v rid
    simp only [List.map_cons, List.nodup_cons] at hnodup
    obtain ⟨idx', heq, hnd', hinv'⟩ :=
      ih (idx.index v rid) (fun r => if r = rid then some row else look r) hnd1 hinv1
        hnodup.2
        (fun p hp => by
          have hne : p.1 ≠ rid := by
            intro hcon
            exact hnodup.1 (hcon ▸ List.mem_map.mpr ⟨p, hp, rfl⟩)
          show (if p.1 = rid then some row else look p.1) = none
          rw [if_neg hne]
          exact hlook p (List.mem_cons_of_mem _ hp))
        (fun p hp => hvals p (List.mem_cons_of_mem _ hp))
    refine ⟨idx', ?_, hnd', ?_⟩
    · rw [backfill?, hv]
      exact heq
    · refine InvF.congr (fun r => ?_) hinv'
      by_cases hr : r = rid
      · rw [hr]
        have hnone : alGet? t rid = none :=
          alGet?_eq_none_of_not_mem hnodup.1
        simp [alGet?, hnone]
      · cases hget : alGet? t r with
        | none => simp [alGet?, hget, hr]
        | some w => simp [alGet?, hget, hr]

omit [DecidableEq T] in
theorem pairRows?_spec {rows : List (Nat × List T)} :
    ∀ {ids : List Nat} {pairs : List (Nat × List T)}, pairRows? rows ids = some pairs →
      pairs.map Prod.fst = ids ∧ ∀ p ∈ pairs, alGet? rows p.1 = some p.2 := by
  intro ids
  induction ids with
  | nil =>
    intro pairs h
    simp only [pairRows?, Option.some.injEq] at h
    subst h
    exact ⟨rfl, fun p hp => absurd hp (List.not_mem_nil p)⟩
  | cons rid t ih =>
    intro pairs h
    cases hget : alGet? rows rid with
    | none => rw [pairRows?, hget] at h; cases h
    | some row =>
      rw [pairRows?, hget] at h
      cases ht : pairRows? rows t with
      | none => rw [ht] at h; cases h
      | some t' =>
        rw [ht] at h
        injection h with h
        obtain ⟨hkeys, hmem⟩ := ih ht
        constructor
        · rw [← h]
          simp [hkeys]
        · intro p hp
          rw [← h] at hp
          rcases List.mem_cons.mp hp with h1 | h1
          · rw [h1]
            exact hget
          · exact hmem p h1

theorem collectMatching?_sublist {conds : List (Condition T)} {f : List T → Bool} :
    ∀ {pairs del : List (Nat × List T)}, collectMatching? conds f pairs = some del →
      del.Sublist pairs := by
  intro pairs
  induction pairs with
  | nil =>
    intro del h
    simp [collectMatching?] at h
    simp [h.symm]
  | cons p t ih =>
    intro del h
    obtain ⟨rid, row⟩ := p
    cases hm : allMatch? conds row with
    | none => rw [collectMatching?, hm] at h; cases h
    | some b =>
      rw [collectMatching?, hm] at h
      cases ht : collectMatching? conds f t with
      | none => rw [ht] at h; cases h
      | some t' =>
        rw [ht] at h
        injection h with h
        rw [← h]
        by_cases hb : (b && f row) = true
        · rw [if_pos hb]
          exact (ih ht).cons₂ (rid, row)
        · rw [if_neg hb]
          exact (ih ht).cons (rid, row)

omit [DecidableEq T] in
theorem removeAll?_spec :
    ∀ {del : List (Nat × List T)} {rows rows' : List (Nat × List T)},
      removeAll? rows del = some rows' → (rows.map Prod.fst).Nodup →
      rows'.Sublist rows ∧
        ∀ r, alGet? rows' r =
          if r ∈ del.map Prod.fst then none else alGet? rows r := by
  intro del
  induction del with
  | nil =>
    intro rows rows' h _
    simp [removeAll?] at h
    rw [← h]
    exact ⟨List.Sublist.refl _, fun r => by simp⟩
  | cons p t ih =>
    intro rows rows' h hnd
    obtain ⟨rid, row⟩ := p
    cases hget : alGet? rows rid with
    | none => rw [removeAll?, hget] at h; cases h
    | some row0 =>
      rw [removeAll?, hget] at h
      have hnd1 : ((alErase rows rid).map Prod.fst).Nodup :=
        List.Nodup.sublist ((alErase_sublist rows rid).map Prod.fst) hnd
      obtain ⟨hsub, hlook⟩ := ih h hnd1
      refine ⟨hsub.trans (alErase_sublist rows rid), fun r => ?_⟩
      rw [hlook r]
      by_cases hr : r = rid
      · rw [hr]
        by_cases hmem : rid ∈ t.map Prod.fst
        · simp [hmem]
        · rw [if_neg hmem, alGet?_erase_self rows rid hnd]
          simp
      · by_cases hmem : r ∈ t.map Prod.fst
        · simp [hmem, hr]
        · rw [if_neg hmem, alGet?_erase_ne rows hr]
          rw [if_neg (by simp [hr, hmem])]

theorem undexRow?_spec {rid : Nat} {row : List T}
    {look : Nat → Option (List T)} (hrow : look rid = some row) :
    ∀ {idxs idxs' : List (Nat × Index T)}, undexRow? rid row idxs = some idxs' →
      (∀ q ∈ idxs, Index.KeysNodup q.2 ∧ InvF q.1 q.2 look) →
      idxs'.map Prod.fst = idxs.map Prod.fst ∧
        ∀ q ∈ idxs', Index.KeysNodup q.2 ∧
          InvF q.1 q.2 (fun r => if r = rid then none else look r) := by
  intro idxs
  induction idxs with
  | nil =>
    intro idxs' h _
    simp only [undexRow?, Option.some.injEq] at h
    subst h
    exact ⟨rfl, fun q hq => absurd hq (List.not_mem_nil q)⟩
  | cons q t ih =>
    intro idxs' h hq
    obtain ⟨col, idx⟩ := q
    cases hv : row.get? col with
    | none => rw [undexRow?, hv] at h; cases h
    | some v =>
      rw [undexRow?, hv] at h
      have h' : (match idx.undex? v rid with
          | none => none
          | some idx' =>
            match undexRow? rid row t with
            | none => none
            | some t' => some ((col, idx') :: t')) = some idxs' := h
      cases hu : idx.undex? v rid with
      | none => rw [hu] at h'; cases h'
      | some idx1 =>
        rw [hu] at h'
        cases ht : undexRow? rid row t with
        | none => rw [ht] at h'; cases h'
        | some t' =>
          rw [ht] at h'
          injection h' with h'
          obtain ⟨hnd0, hinv0⟩ := hq (col, idx) (by simp)
          obtain ⟨idx2, heq2, hnd2, hinv2⟩ := InvF.undex hinv0 hnd0 hrow hv
          have hidx : idx1 = idx2 := by
            rw [hu] at heq2
            exact Option.some.inj heq2
          obtain ⟨hkeys, hmem⟩ := ih ht (fun q hq0 => hq q (List.mem_cons_of_mem _ hq0))
          constructor
          · rw [← h']
            simp [hkeys]
          · intro q' hq'
            rw [← h'] at hq'
            rcases List.mem_cons.mp hq' with h1 | h1
            · rw [h1, hidx]
              exact ⟨hnd2, hinv2⟩
            · exact hmem q' h1

theorem undexAll?_spec :
    ∀ {del : List (Nat × List T)} {idxs idxs' : List (Nat × Index T)}
      {look : Nat → Option (List T)},
      undexAll? idxs del = some idxs' →
      ((del.map Prod.fst).Nodup) →
      (∀ p ∈ del, look p.1 = some p.2) →
      (∀ q ∈ idxs, Index.KeysNodup q.2 ∧ InvF q.1 q.2 look) →
      idxs'.map Prod.fst = idxs.map Prod.fst ∧
        ∀ q ∈ idxs', Index.KeysNodup q.2 ∧
          InvF q.1 q.2 (fun r => if r ∈ del.map Prod.fst then none else look r) := by
  intro del
  induction del with
  | nil =>
    intro idxs idxs' look h _ _ hq
    simp [undexAll?] at h
    rw [← h]
    exact ⟨rfl, fun q hq0 => ⟨(hq q hq0).1, InvF.congr (fun r => by simp) (hq q hq0).2⟩⟩
  | cons p t ih =>
    intro idxs idxs' look h hnd hdel hq
    obtain ⟨rid, row⟩ := p
    cases hu : undexRow? rid row idxs with
    | none => rw [undexAll?, hu] at h; cases h
    | some idxs1 =>
      rw [undexAll?, hu] at h
      simp only [List.map_cons, List.nodup_cons] at hnd
      obtain ⟨hkeys1, hmem1⟩ := undexRow?_spec (hdel (rid, row) (by simp)) hu hq
      obtain ⟨hkeys2, hmem2⟩ := ih h hnd.2
        (fun p hp => by
          have hne : p.1 ≠ rid := by
            intro hcon
            exact hnd.1 (hcon ▸ List.mem_map.mpr ⟨p, hp, rfl⟩)
          show (if p.1 = rid then none else look p.1) = some p.2
          rw [if_neg hne]
          exact hdel p (List.mem_cons_of_mem _ hp))
        hmem1
      refine ⟨hkeys2.trans hkeys1, fun q hq' => ?_⟩
      obtain ⟨hndq, hinvq⟩ := hmem2 q hq'
      refine ⟨hndq, InvF.congr (fun r => ?_) hinvq⟩
      by_cases hr : r = rid
      · simp [hr]
      · by_cases hmem : r ∈ t.map Prod.fst
        · simp [hr, hmem]
        · simp [hr, hmem]

omit [DecidableEq T] in
theorem minByEstAux_mem :
    ∀ {l : List (T × Index T)} {best : T × Index T} {kb : Nat} {m : T × Index T},
      minByEstAux best kb l = some m → m = best ∨ m ∈ l := by
  intro l
  induction l with
  | nil =>
    intro best kb m h
    simp [minByEstAux] at h
    exact Or.inl h.symm
  | cons x xs ih =>
    intro best kb m h
    cases he : x.2.estimate? with
    | none => rw [minByEstAux, he] at h; cases h
    | some kx =>
      rw [minByEstAux, he] at h
      have h' : (if kx < kb then minByEstAux x kx xs else minByEstAux best kb xs) =
          some m := h
      by_cases hlt : kx < kb
      · rw [if_pos hlt] at h'
        rcases ih h' with h1 | h1
        · exact Or.inr (by rw [h1]; simp)
        · exact Or.inr (List.mem_cons_of_mem _ h1)
      · rw [if_neg hlt] at h'
        rcases ih h' with h1 | h1
        · exact Or.inl h1
        · exact Or.inr (List.mem_cons_of_mem _ h1)

omit [DecidableEq T] in
theorem minByEstAux_min :
    ∀ {l : List (T × Index T)} {best : T × Index T} {kb : Nat} {m : T × Index T},
      minByEstAux best kb l = some m → best.2.estimate? = some kb →
      ∃ e, m.2.estimate? = some e ∧ e ≤ kb ∧
        ∀ x ∈ l, ∀ ex, x.2.estimate? = some ex → e ≤ ex := by
  intro l
  induction l with
  | nil =>
    intro best kb m h hb
    simp [minByEstAux] at h
    rw [← h]
    exact ⟨kb, hb, le_refl kb, by simp⟩
  | cons x xs ih =>
    intro best kb m h hb
    cases he : x.2.estimate? with
    | none => rw [minByEstAux, he] at h; cases h
    | some kx =>
      rw [minByEstAux, he] at h
      have h' : (if kx < kb then minByEstAux x kx xs else minByEstAux best kb xs) =
          some m := h
      by_cases hlt : kx < kb
      · rw [if_pos hlt] at h'
        obtain ⟨e, hm, hle, hall⟩ := ih h' he
        refine ⟨e, hm, le_of_lt (lt_of_le_of_lt hle hlt), fun x' hx' ex hex => ?_⟩
        rcases List.mem_cons.mp hx' with h1 | h1
        · rw [h1, he] at hex
          injection hex with hex
          rw [← hex]
          exact hle
        · exact hall x' h1 ex hex
      · rw [if_neg hlt] at h'
        obtain ⟨e, hm, hle, hall⟩ := ih h' hb
        refine ⟨e, hm, hle, fun x' hx' ex hex => ?_⟩
        rcases List.mem_cons.mp hx' with h1 | h1
        · rw [h1, he] at hex
          injection hex with hex
          rw [← hex]
          exact le_trans hle (Nat.le_of_not_lt hlt)
        · exact hall x' h1 ex hex

omit [DecidableEq T] in
theorem minByEst?_spec {l : List (T × Index T)} {m : T × Index T}
    (h : minByEst? l = some (some m)) :
    m ∈ l ∧ ∃ e, m.2.estimate? = some e ∧
      ∀ x ∈ l, ∀ ex, x.2.estimate? = some ex → e ≤ ex := by
  cases l with
  | nil => simp [minByEst?] at h
  | cons x xs =>
    cases he : x.2.estimate? with
    | none => rw [minByEst?, he] at h; cases h
    | some kx =>
      rw [minByEst?, he] at h
      have h2 : (minByEstAux x kx xs).map some = some (some m) := h
      cases haux : minByEstAux x kx xs with
      | none => rw [haux] at h2; cases h2
      | some m0 =>
        rw [haux] at h2
        simp only [Option.map_some', Option.some.injEq] at h2
        rw [← h2]
        obtain ⟨e, hm, hle, hall⟩ := minByEstAux_min haux he
        constructor
        · rcases minByEstAux_mem haux with h1 | h1
          · rw [h1]; simp
          · exact List.mem_cons_of_mem _ h1
        · refine ⟨e, hm, fun x' hx' ex hex => ?_⟩
          rcases List.mem_cons.mp hx' with h1 | h1
          · rw [h1, he] at hex
            injection hex with hex
            rw [← hex]
            exact hle
          · exact hall x' h1 ex hex

omit [DecidableEq T] in
theorem minByEstAux_isSome :
    ∀ {l : List (T × Index T)} {best : T × Index T} {kb : Nat},
      (∀ x ∈ l, (x.2.estimate?).isSome) → ∃ m, minByEstAux best kb l = some m := by
  intro l
  induction l with
  | nil => intro best kb _; exact ⟨best, rfl⟩
  | cons x xs ih =>
    intro best kb hall
    obtain ⟨kx, hkx⟩ := Option.isSome_iff_exists.mp (hall x (by simp))
    have hred : minByEstAux best kb (x :: xs) =
        if kx < kb then minByEstAux x kx xs else minByEstAux best kb xs := by
      rw [minByEstAux, hkx]
    rw [hred]
    by_cases hlt : kx < kb
    · rw [if_pos hlt]
      exact ih (fun x' hx' => hall x' (List.mem_cons_of_mem _ hx'))
    · rw [if_neg hlt]
      exact ih (fun x' hx' => hall x' (List.mem_cons_of_mem _ hx'))

omit [DecidableEq T] in
theorem minByEst?_isSome {l : List (T × Index T)} (hne : l ≠ [])
    (h : ∀ x ∈ l, (x.2.estimate?).isSome) : ∃ m, minByEst? l = some (some m) := by
  cases l with
  | nil => exact absurd rfl hne
  | cons x xs =>
    obtain ⟨kx, hkx⟩ := Option.isSome_iff_exists.mp (h x (by simp))
    obtain ⟨m, hm⟩ := @minByEstAux_isSome T xs x kx
      (fun x' hx' => h x' (List.mem_cons_of_mem _ hx'))
    refine ⟨m, ?_⟩
    have hred : minByEst? (x :: xs) = (minByEstAux x kx xs).map some := by
      rw [minByEst?, hkx]
    rw [hred, hm]
    rfl

theorem mem_eligible {s : Store T} {conds : List (Condition T)} {v : T} {idx : Index T} :
    (v, idx) ∈ s.eligible conds ↔
      ∃ c ∈ conds, alGet? s.indices c.column = some idx ∧
        c.cmp = Comparison.equal (Value.const v) := by
  unfold Store.eligible
  rw [List.mem_filterMap]
  constructor
  · rintro ⟨c, hc, hf⟩
    refine ⟨c, hc, ?_⟩
    cases hget : alGet? s.indices c.column with
    | none =>
      rw [hget] at hf
      cases hcmp : c.cmp with
      | equal w => cases w <;> (rw [hcmp] at hf; cases hf)
    | some idx0 =>
      rw [hget] at hf
      cases hcmp : c.cmp with
      | equal w =>
        cases w with
        | const u =>
          rw [hcmp] at hf
          injection hf with hf
          injection hf with hf1 hf2
          refine ⟨?_, ?_⟩
          · rw [hf2]
          · rw [hf1]
        | column i => rw [hcmp] at hf; cases hf
  · rintro ⟨c, hc, hget, hcmp⟩
    exact ⟨c, hc, by rw [hget, hcmp]⟩

theorem using_index?_cases {s : Store T} {conds : List (Condition T)} {ids : List Nat}
    (h : s.using_index? conds = some ids) :
    ids = s.rows.map Prod.fst ∨
      ∃ v idx, (v, idx) ∈ s.eligible conds ∧ ids = idx.lookup v := by
  unfold Store.using_index? at h
  cases hm : minByEst? (s.eligible conds) with
  | none => rw [hm] at h; cases h
  | some o =>
    rw [hm] at h
    cases o with
    | none =>
      injection h with h
      exact Or.inl h.symm
    | some p =>
      obtain ⟨v, idx⟩ := p
      injection h with h
      exact Or.inr ⟨v, idx, (minByEst?_spec hm).1, h.symm⟩

end StageFacts

/-! ### Preservation of well-formedness along the store operations -/

section WFFacts

variable {T : Type} [DecidableEq T]

theorem Store.wf_new (cols : Nat) : (Store.new cols : Store T).WF := by
  constructor <;> simp [Store.new]

theorem Store.wf_insert {s s' : Store T} {row : List T}
    (hwf : s.WF) (h : s.insert? row = some s') : s'.WF := by
  unfold Store.insert? at h
  by_cases hlen : row.length = s.cols
  · rw [if_pos hlen] at h
    cases hidx : indexAll? row s.rowid s.indices with
    | none => rw [hidx] at h; cases h
    | some idxs =>
      rw [hidx] at h
      injection h with h
      have hbig : ∀ x ∈ s.rows.map Prod.fst, x < s.rowid := by
        intro x hx
        obtain ⟨p, hp, hfst⟩ := List.mem_map.mp hx
        exact hfst ▸ hwf.rows_lt p hp
      have hins : rowsInsert s.rows s.rowid row = s.rows ++ [(s.rowid, row)] :=
        rowsInsert_append s.rows s.rowid row hbig
      have hfreshid : alGet? s.rows s.rowid = none := by
        apply alGet?_eq_none_of_not_mem
        intro hmem
        exact absurd (hbig s.rowid hmem) (lt_irrefl s.rowid)
      rw [← h]
      constructor
      · show ((rowsInsert s.rows s.rowid row).map Prod.fst).Pairwise (· < ·)
        rw [hins, List.map_append, List.pairwise_append]
        refine ⟨hwf.rows_sorted, by simp, ?_⟩
        intro a ha b hb
        simp only [List.map_cons, List.map_nil, List.mem_singleton] at hb
        rw [hb]
        exact hbig a ha
      · intro p hp
        show p.1 < s.rowid + 1
        rw [hins] at hp
        rcases List.mem_append.mp hp with h1 | h1
        · exact Nat.lt_succ_of_lt (hwf.rows_lt p h1)
        · rw [List.mem_singleton] at h1
          rw [h1]
          exact Nat.lt_succ_self _
      · intro p hp
        show p.2.length = s.cols
        rw [hins] at hp
        rcases List.mem_append.mp hp with h1 | h1
        · exact hwf.rows_len p h1
        · rw [List.mem_singleton] at h1
          rw [h1]
          exact hlen
      · show (idxs.map Prod.fst).Nodup
        rw [indexAll?_keys hidx]
        exact hwf.idx_keys
      · intro q hq
        obtain ⟨idx, v, hmem, hv, heq⟩ := indexAll?_mem hidx q hq
        exact hwf.idx_cols (q.1, idx) hmem
      · intro q hq
        obtain ⟨idx, v, hmem, hv, heq⟩ := indexAll?_mem hidx q hq
        rw [heq]
        exact Index.keysNodup_index (hwf.idx_rep (q.1, idx) hmem) v s.rowid
      · intro q hq
        obtain ⟨idx, v, hmem, hv, heq⟩ := indexAll?_mem hidx q hq
        rw [heq]
        have hinv := hwf.idx_inv (q.1, idx) hmem
        have h1 := InvF.index hinv hfreshid hv
        refine InvF.congr (fun r => ?_) h1
        show (if r = s.rowid then some row else alGet? s.rows r) =
          alGet? (rowsInsert s.rows s.rowid row) r
        rw [hins]
        exact (alGet?_append_fresh hfreshid row r).symm
  · rw [if_neg hlen] at h
    cases h

theorem Store.wf_attach {s s' : Store T} {column : Nat} {idx0 : Index T}
    (hwf : s.WF) (hcol : column < s.cols) (hf : idx0.Fresh)
    (h : s.index? column idx0 = some s') : s'.WF := by
  have hrnd : (s.rows.map Prod.fst).Nodup := hwf.rows_sorted.nodup
  obtain ⟨idx', hb, hnd', hinv'⟩ := backfill?_spec column s.rows idx0 (fun _ => none)
    (Index.fresh_keysNodup hf) (InvF.fresh hf) hrnd
    (fun _ _ => rfl)
    (fun p hp => get?_isSome_of_lt (by rw [hwf.rows_len p hp]; exact hcol))
  unfold Store.index? at h
  rw [hb] at h
  injection h with h
  rw [← h]
  constructor
  · exact hwf.rows_sorted
  · exact hwf.rows_lt
  · exact hwf.rows_len
  · show ((alInsertReplace s.indices column idx').map Prod.fst).Nodup
    exact keys_insertReplace_nodup _ _ _ hwf.idx_keys
  · intro q hq
    rcases mem_insertReplace hq with h1 | h1
    · exact hwf.idx_cols q h1
    · rw [h1]
      exact hcol
  · intro q hq
    rcases mem_insertReplace hq with h1 | h1
    · exact hwf.idx_rep q h1
    · rw [h1]
      exact hnd'
  · intro q hq
    rcases mem_insertReplace hq with h1 | h1
    · exact hwf.idx_inv q h1
    · rw [h1]
      refine InvF.congr (fun r => ?_) hinv'
      cases hg : alGet? s.rows r with
      | none => simp [hg]
      | some w => simp [hg]

theorem Store.delete_filter?_inv {s s' : Store T} {conds : List (Condition T)}
    {f : List T → Bool} (h : s.delete_filter? conds f = some s') :
    ∃ ids pairs del rows' idxs',
      s.using_index? conds = some ids ∧
      pairRows? s.rows ids = some pairs ∧
      collectMatching? conds f pairs = some del ∧
      removeAll? s.rows del = some rows' ∧
      undexAll? s.indices del = some idxs' ∧
      s' = { s with rows := rows', indices := idxs' } := by
  unfold Store.delete_filter? at h
  cases hu : s.using_index? conds with
  | none => rw [hu] at h; cases h
  | some ids =>
    rw [hu] at h
    replace h : (match pairRows? s.rows ids with
        | none => none
        | some pairs =>
          match collectMatching? conds f pairs with
          | none => none
          | some del =>
            match removeAll? s.rows del with
            | none => none
            | some rows' =>
              match undexAll? s.indices del with
              | none => none
              | some idxs' => some { s with rows := rows', indices := idxs' }) =
        some s' := h
    cases hp : pairRows? s.rows ids with
    | none => rw [hp] at h; cases h
    | some pairs =>
      rw [hp] at h
      replace h : (match collectMatching? conds f pairs with
          | none => none
          | some del =>
            match removeAll? s.rows del with
            | none => none
            | some rows' =>
              match undexAll? s.indices del with
              | none => none
              | some idxs' => some { s with rows := rows', indices := idxs' }) =
          some s' := h
      cases hc : collectMatching? conds f pairs with
      | none => rw [hc] at h; cases h
      | some del =>
        rw [hc] at h
        replace h : (match removeAll? s.rows del with
            | none => none
            | some rows' =>
              match undexAll? s.indices del with
              | none => none
              | some idxs' => some { s with rows := rows', indices := idxs' }) =
            some s' := h
        cases hr : removeAll? s.rows del with
        | none => rw [hr] at h; cases h
        | some rows' =>
          rw [hr] at h
          replace h : (match undexAll? s.indices del with
              | none => none
              | some idxs' => some { s with rows := rows', indices := idxs' }) =
              some s' := h
          cases hux : undexAll? s.indices del with
          | none => rw [hux] at h; cases h
          | some idxs' =>
            rw [hux] at h
            injection h with h
            exact ⟨ids, pairs, del, rows', idxs', rfl, hp, hc, hr, hux, h.symm⟩

theorem Store.candidate_facts {s : Store T} {conds : List (Condition T)} {ids : List Nat}
    (hwf : s.WF) (hu : s.using_index? conds = some ids) :
    ids.Nodup ∧ ∀ rid ∈ ids, (alGet? s.rows rid).isSome := by
  have hrnd : (s.rows.map Prod.fst).Nodup := hwf.rows_sorted.nodup
  rcases using_index?_cases hu with hscan | ⟨v, idx, helig, hlook⟩
  · constructor
    · rw [hscan]
      exact hrnd
    · intro rid hrid
      rw [hscan] at hrid
      exact alGet?_isSome_of_mem_keys hrid
  · obtain ⟨c, hcmem, hget, hcmp⟩ := mem_eligible.mp helig
    have hinv := hwf.idx_inv (c.column, idx) (alGet?_mem hget)
    constructor
    · rw [hlook, List.nodup_iff_count_le_one]
      intro a
      rw [hinv v a]
      cases halo : alGet? s.rows a with
      | none => simp [rowCount]
      | some w =>
        simp only [rowCount]
        by_cases hw : w.get? c.column = some v
        · rw [if_pos hw]
        · rw [if_neg hw]
          exact Nat.zero_le 1
    · intro rid hrid
      rw [hlook] at hrid
      have hcount : 0 < (Index.lookup idx v).count rid :=
        List.count_pos_iff.mpr hrid
      rw [hinv v rid] at hcount
      cases halo : alGet? s.rows rid with
      | none => rw [halo] at hcount; simp [rowCount] at hcount
      | some w => simp [halo]

theorem Store.wf_delete {s s' : Store T} {conds : List (Condition T)} {f : List T → Bool}
    (hwf : s.WF) (h : s.delete_filter? conds f = some s') : s'.WF := by
  obtain ⟨ids, pairs, del, rows', idxs', hu, hp, hc, hr, hux, hs'⟩ :=
    Store.delete_filter?_inv h
  have hrnd : (s.rows.map Prod.fst).Nodup := hwf.rows_sorted.nodup
  have hids := Store.candidate_facts hwf hu
  obtain ⟨hpk, hpm⟩ := pairRows?_spec hp
  have hdsub : del.Sublist pairs := collectMatching?_sublist hc
  have hdnd : (del.map Prod.fst).Nodup := by
    have hsubk : (del.map Prod.fst).Sublist (pairs.map Prod.fst) :=
      hdsub.map Prod.fst
    rw [hpk] at hsubk
    exact List.Nodup.sublist hsubk hids.1
  have hdmem : ∀ p ∈ del, alGet? s.rows p.1 = some p.2 :=
    fun p hp0 => hpm p (hdsub.subset hp0)
  obtain ⟨hrsub, hrlook⟩ := removeAll?_spec hr hrnd
  obtain ⟨hkeys', hmem'⟩ := undexAll?_spec hux hdnd hdmem
    (fun q hq => ⟨hwf.idx_rep q hq, hwf.idx_inv q hq⟩)
  rw [hs']
  constructor
  · exact List.Pairwise.sublist (hrsub.map Prod.fst) hwf.rows_sorted
  · intro p hp0
    exact hwf.rows_lt p (hrsub.subset hp0)
  · intro p hp0
    exact hwf.rows_len p (hrsub.subset hp0)
  · show (idxs'.map Prod.fst).Nodup
    rw [hkeys']
    exact hwf.idx_keys
  · intro q hq
    have hq1 : q.1 ∈ idxs'.map Prod.fst := List.mem_map.mpr ⟨q, hq, rfl⟩
    rw [hkeys'] at hq1
    obtain ⟨q0, hq0, hfst⟩ := List.mem_map.mp hq1
    show q.1 < s.cols
    rw [← hfst]
    exact hwf.idx_cols q0 hq0
  · intro q hq
    exact (hmem' q hq).1
  · intro q hq
    refine InvF.congr (fun r => ?_) (hmem' q hq).2
    exact (hrlook r).symm

theorem reachable_wf {s : Store T} (h : Reachable s) : s.WF := by
  induction h with
  | new cols => exact Store.wf_new cols
  | insert _ hstep ih => exact Store.wf_insert ih hstep
  | delete _ hstep ih => exact Store.wf_delete ih hstep
  | attach _ hcol hf hstep ih => exact Store.wf_attach ih hcol hf hstep

end WFFacts

/-! ### Facts about condition evaluation and `find` -/

section FindFacts

variable {T : Type} [DecidableEq T]

theorem allMatch?_true_iff {conds : List (Condition T)} {row : List T} :
    allMatch? conds row = some true ↔ ∀ c ∈ conds, c.matches? row = some true := by
  induction conds with
  | nil => simp [allMatch?]
  | cons c cs ih =>
    constructor
    · intro h
      cases hm : c.matches? row with
      | none => rw [allMatch?, hm] at h; cases h
      | some b =>
        rw [allMatch?, hm] at h
        replace h : (if b then allMatch? cs row else some false) = some true := h
        cases b with
        | false => rw [if_neg (by simp)] at h; cases h
        | true =>
          rw [if_pos rfl] at h
          intro c' hc'
          rcases List.mem_cons.mp hc' with h1 | h1
          · rw [h1]
            exact hm
          · exact ih.mp h c' h1
    · intro h
      have hc := h c (by simp)
      rw [allMatch?, hc]
      show allMatch? cs row = some true
      exact ih.mpr (fun c' hc' => h c' (List.mem_cons_of_mem _ hc'))

theorem matches?_const_true {c : Condition T} {v : T}
    (hcmp : c.cmp = Comparison.equal (Value.const v)) {row : List T} :
    c.matches? row = some true ↔ row.get? c.column = some v := by
  unfold Condition.matches?
  rw [hcmp]
  cases hg : row.get? c.column with
  | none => simp
  | some x =>
    show Comparison.matches? (Comparison.equal (Value.const v)) x row = some true ↔
      some x = some v
    unfold Comparison.matches? Value.value?
    simp [decide_eq_true_eq]

omit [DecidableEq T] in
theorem mapGetRows?_mem {rows : List (Nat × List T)} :
    ∀ {ids : List Nat} {rs : List (List T)}, mapGetRows? rows ids = some rs →
      ∀ r, r ∈ rs ↔ ∃ rid ∈ ids, alGet? rows rid = some r := by
  intro ids
  induction ids with
  | nil =>
    intro rs h r
    simp only [mapGetRows?, Option.some.injEq] at h
    subst h
    simp
  | cons rid t ih =>
    intro rs h r
    cases hget : alGet? rows rid with
    | none => rw [mapGetRows?, hget] at h; cases h
    | some row =>
      rw [mapGetRows?, hget] at h
      have h' : (match mapGetRows? rows t with
          | none => none
          | some rs0 => some (row :: rs0)) = some rs := h
      cases ht : mapGetRows? rows t with
      | none => rw [ht] at h'; cases h'
      | some rs0 =>
        rw [ht] at h'
        injection h' with h'
        rw [← h']
        constructor
        · intro hr
          rcases List.mem_cons.mp hr with h1 | h1
          · exact ⟨rid, by simp, by rw [h1]; exact hget⟩
          · obtain ⟨rid', hrid', hget'⟩ := ((ih ht) r).mp h1
            exact ⟨rid', List.mem_cons_of_mem _ hrid', hget'⟩
        · rintro ⟨rid', hrid', hget'⟩
          rcases List.mem_cons.mp hrid' with h1 | h1
          · rw [h1] at hget'
            rw [hget] at hget'
            injection hget' with hget'
            rw [hget']
            simp
          · exact List.mem_cons_of_mem _ (((ih ht) r).mpr ⟨rid', h1, hget'⟩)

theorem filterMatching?_mem {conds : List (Condition T)} :
    ∀ {rs l : List (List T)}, filterMatching? conds rs = some l →
      ∀ r, r ∈ l ↔ r ∈ rs ∧ allMatch? conds r = some true := by
  intro rs
  induction rs with
  | nil =>
    intro l h r
    simp only [filterMatching?, Option.some.injEq] at h
    subst h
    simp
  | cons r0 t ih =>
    intro l h r
    cases hm : allMatch? conds r0 with
    | none => rw [filterMatching?, hm] at h; cases h
    | some b =>
      rw [filterMatching?, hm] at h
      have h' : (match filterMatching? conds t with
          | none => none
          | some t' => some (if b then r0 :: t' else t')) = some l := h
      cases ht : filterMatching? conds t with
      | none => rw [ht] at h'; cases h'
      | some l' =>
        rw [ht] at h'
        injection h' with h'
        rw [← h']
        cases b with
        | true =>
          rw [if_pos rfl]
          constructor
          · intro hr
            rcases List.mem_cons.mp hr with h1 | h1
            · rw [h1]
              exact ⟨by simp, hm⟩
            · obtain ⟨hmem, hmt⟩ := ((ih ht) r).mp h1
              exact ⟨List.mem_cons_of_mem _ hmem, hmt⟩
          · rintro ⟨hmem, hmt⟩
            rcases List.mem_cons.mp hmem with h1 | h1
            · rw [h1]
              simp
            · exact List.mem_cons_of_mem _ (((ih ht) r).mpr ⟨h1, hmt⟩)
        | false =>
          rw [if_neg (by simp)]
          constructor
          · intro hr
            obtain ⟨hmem, hmt⟩ := ((ih ht) r).mp hr
            exact ⟨List.mem_cons_of_mem _ hmem, hmt⟩
          · rintro ⟨hmem, hmt⟩
            rcases List.mem_cons.mp hmem with h1 | h1
            · rw [h1] at hmt
              rw [hmt] at hm
              cases hm
            · exact ((ih ht) r).mpr ⟨h1, hmt⟩

theorem Store.find?_inv {s : Store T} {conds : List (Condition T)} {l : List (List T)}
    (h : s.find? conds = some l) :
    ∃ ids rs, s.using_index? conds = some ids ∧ mapGetRows? s.rows ids = some rs ∧
      filterMatching? conds rs = some l := by
  unfold Store.find? at h
  cases hu : s.using_index? conds with
  | none => rw [hu] at h; cases h
  | some ids =>
    rw [hu] at h
    replace h : (match mapGetRows? s.rows ids with
        | none => none
        | some rs => filterMatching? conds rs) = some l := h
    cases hm : mapGetRows? s.rows ids with
    | none => rw [hm] at h; cases h
    | some rs =>
      rw [hm] at h
      exact ⟨ids, rs, rfl, hm, h⟩

theorem Store.find_mem_spec {s : Store T} (hwf : s.WF) {conds : List (Condition T)}
    {l : List (List T)} (h : s.find? conds = some l) (r : List T) :
    r ∈ l ↔ ∃ rid, alGet? s.rows rid = some r ∧ allMatch? conds r = some true := by
  obtain ⟨ids, rs, hu, hm, hf⟩ := Store.find?_inv h
  constructor
  · intro hr
    obtain ⟨hrs, hmt⟩ := (filterMatching?_mem hf r).mp hr
    obtain ⟨rid, hrid, hget⟩ := ((mapGetRows?_mem hm) r).mp hrs
    exact ⟨rid, hget, hmt⟩
  · rintro ⟨rid, hget, hmt⟩
    have hid : rid ∈ ids := by
      rcases using_index?_cases hu with hscan | ⟨v, idx, helig, hlook⟩
      · rw [hscan]
        exact List.mem_map.mpr ⟨(rid, r), alGet?_mem hget, rfl⟩
      · obtain ⟨c, hcmem, hgetidx, hcmp⟩ := mem_eligible.mp helig
        have hinv := hwf.idx_inv (c.column, idx) (alGet?_mem hgetidx)
        have hcm : c.matches? r = some true := allMatch?_true_iff.mp hmt c hcmem
        have hrv : r.get? c.column = some v := (matches?_const_true hcmp).mp hcm
        have hcnt := hinv v rid
        rw [hget] at hcnt
        simp only [rowCount] at hcnt
        rw [if_pos hrv] at hcnt
        rw [hlook]
        exact List.count_pos_iff.mp (by rw [hcnt]; exact Nat.one_pos)
    have hrs : r ∈ rs := ((mapGetRows?_mem hm) r).mpr ⟨rid, hid, hget⟩
    exact (filterMatching?_mem hf r).mpr ⟨hrs, hmt⟩

end FindFacts

/-! ### Row-id counter behaviour of the operations -/

section RowidFacts

variable {T : Type} [DecidableEq T]

theorem Store.insert?_inv {s s' : Store T} {row : List T} (h : s.insert? row = some s') :
    row.length = s.cols ∧ ∃ idxs, indexAll? row s.rowid s.indices = some idxs ∧
      s' = { s with
               rowid := s.rowid + 1
               rows := rowsInsert s.rows s.rowid row
               indices := idxs } := by
  unfold Store.insert? at h
  by_cases hlen : row.length = s.cols
  · rw [if_pos hlen] at h
    cases hidx : indexAll? row s.rowid s.indices with
    | none => rw [hidx] at h; cases h
    | some idxs =>
      rw [hidx] at h
      injection h with h
      exact ⟨hlen, idxs, rfl, h.symm⟩
  · rw [if_neg hlen] at h
    cases h

theorem Store.index?_inv {s s' : Store T} {column : Nat} {idx0 : Index T}
    (h : s.index? column idx0 = some s') :
    ∃ idx', backfill? column idx0 s.rows = some idx' ∧
      s' = { s with indices := alInsertReplace s.indices column idx' } := by
  unfold Store.index? at h
  cases hb : backfill? column idx0 s.rows with
  | none => rw [hb] at h; cases h
  | some idx' =>
    rw [hb] at h
    injection h with h
    exact ⟨idx', rfl, h.symm⟩

theorem Store.insert?_rowid {s s' : Store T} {row : List T}
    (h : s.insert? row = some s') : s'.rowid = s.rowid + 1 := by
  obtain ⟨_, idxs, _, hs'⟩ := Store.insert?_inv h
  rw [hs']

theorem Store.delete_filter?_rowid {s s' : Store T} {conds : List (Condition T)}
    {f : List T → Bool} (h : s.delete_filter? conds f = some s') : s'.rowid = s.rowid := by
  obtain ⟨_, _, _, _, _, _, _, _, _, _, hs'⟩ := Store.delete_filter?_inv h
  rw [hs']

theorem Store.index?_rowid {s s' : Store T} {column : Nat} {idx0 : Index T}
    (h : s.index? column idx0 = some s') : s'.rowid = s.rowid := by
  obtain ⟨idx', _, hs'⟩ := Store.index?_inv h
  rw [hs']

theorem runOps_lb :
    ∀ (ops : List (Op T)) (s sf : Store T) (ids : List Nat),
      runOps s ops = some (sf, ids) →
      (∀ i ∈ ids, s.rowid ≤ i) ∧ ids.Pairwise (· < ·) := by
  intro ops
  induction ops with
  | nil =>
    intro s sf ids h
    simp only [runOps, Option.some.injEq, Prod.mk.injEq] at h
    rw [← h.2]
    exact ⟨fun i hi => absurd hi (List.not_mem_nil i), List.Pairwise.nil⟩
  | cons op t ih =>
    intro s sf ids h
    cases op with
    | ins row =>
      rw [runOps] at h
      cases hs1 : s.insert? row with
      | none => rw [hs1] at h; cases h
      | some s1 =>
        rw [hs1] at h
        replace h : (match runOps s1 t with
            | none => none
            | some (sf0, ids0) => some (sf0, s.rowid :: ids0)) = some (sf, ids) := h
        cases hr : runOps s1 t with
        | none => rw [hr] at h; cases h
        | some p =>
          obtain ⟨sf0, ids0⟩ := p
          rw [hr] at h
          injection h with h
          injection h with h1 h2
          obtain ⟨hlb, hpw⟩ := ih s1 sf0 ids0 hr
          have hrowid : s1.rowid = s.rowid + 1 := Store.insert?_rowid hs1
          rw [← h2]
          constructor
          · intro i hi
            rcases List.mem_cons.mp hi with h3 | h3
            · rw [h3]
            · have h4 := hlb i h3
              omega
          · rw [List.pairwise_cons]
            refine ⟨fun i hi => ?_, hpw⟩
            have h4 := hlb i hi
            omega
    | del conds f =>
      rw [runOps] at h
      cases hs1 : s.delete_filter? conds f with
      | none => rw [hs1] at h; cases h
      | some s1 =>
        rw [hs1] at h
        obtain ⟨hlb, hpw⟩ := ih s1 sf ids h
        have hrowid : s1.rowid = s.rowid := Store.delete_filter?_rowid hs1
        exact ⟨fun i hi => by have h4 := hlb i hi; omega, hpw⟩
    | att col idx =>
      rw [runOps] at h
      cases hs1 : s.index? col idx with
      | none => rw [hs1] at h; cases h
      | some s1 =>
        rw [hs1] at h
        obtain ⟨hlb, hpw⟩ := ih s1 sf ids h
        have hrowid : s1.rowid = s.rowid := Store.index?_rowid hs1
        exact ⟨fun i hi => by have h4 := hlb i hi; omega, hpw⟩

end RowidFacts

/-! ### The claims -/

section Claims

variable {T : Type} [DecidableEq T]

/-- C6: inserting a row whose column count differs from the store's `cols`
panics on the (debug) assertion — modelled as `none` — before anything is
stored: there is no resulting store state, so the mismatched row is never
stored, and the failure is a panic rather than a recoverable error value. -/
theorem c6_insert_mismatch_panics (s : Store T) (row : List T)
    (h : row.length ≠ s.cols) : s.insert? row = none := by
  unfold Store.insert?
  rw [if_neg h]

theorem c6_witness : (Store.new 2 : Store Nat).insert? [5] = none :=
  c6_insert_mismatch_panics (Store.new 2) [5] (by decide)

/-- C9: `HashIndex::undex` with a key present in the map but a row id absent
from that key's bucket reaches the `unreachable!()` branch and panics
(modelled as `none`), while `undex` with a key absent from the map leaves the
index entirely unchanged and does not panic. -/
theorem c9_undex_panic (h : HashIndex T) (key : T) (rid : Nat) :
    ((∃ l, alGet? h.map key = some l ∧ rid ∉ l) → h.undex? key rid = none) ∧
    (alGet? h.map key = none → h.undex? key rid = some h) := by
  constructor
  · rintro ⟨l, hget, hmem⟩
    have hpos : posOf? rid l = none := by
      cases hp : posOf? rid l with
      | none => rfl
      | some i => exact absurd (posOf?_mem hp) hmem
    have hred : h.undex? key rid = (match posOf? rid l with
        | none => none
        | some i =>
          let l1 := swapRemoveAt l i
          if l1.isEmpty then some { h with map := alErase h.map key }
          else some { h with map := alSet h.map key l1 }) := by
      unfold HashIndex.undex?
      rw [hget]
    rw [hred, hpos]
  · intro hget
    unfold HashIndex.undex?
    rw [hget]

theorem c9_witness :
    (HashIndex.mk 1 [(5, [3])] : HashIndex Nat).undex? 5 9 = none ∧
    (HashIndex.mk 1 [(5, [3])] : HashIndex Nat).undex? 6 9 =
      some (HashIndex.mk 1 [(5, [3])]) :=
  ⟨(c9_undex_panic ⟨1, [(5, [3])]⟩ 5 9).1 ⟨[3], by decide, by decide⟩,
   (c9_undex_panic ⟨1, [(5, [3])]⟩ 6 9).2 (by decide)⟩

/-- C4 (code bug): the claim that `estimate()` always returns total entries
divided by distinct keys and returns `0` on an empty index fails in the code.
`BTreeIndex::estimate` on the empty index divides by zero and panics
(`estimate? = none`), and after `HashIndex::undex` (which never decrements
`num`) the hash index `⟨2, [(7, [1])]⟩` reports `estimate() = 2` although it
holds 1 entry under 1 distinct key. -/
theorem c4_estimate_bug :
    (BTreeIndex.new : BTreeIndex Nat).estimate? = none ∧
    (((HashIndex.new : HashIndex Nat).index 7 0).index 7 1).undex? 7 0 =
      some ⟨2, [(7, [1])]⟩ ∧
    HashIndex.estimate (⟨2, [(7, [1])]⟩ : HashIndex Nat) = 2 ∧
    (([(7, [1])] : List (Nat × List Nat)).map (fun p => p.2.length)).sum = 1 :=
  ⟨rfl, rfl, rfl, rfl⟩

/-- C5 (counterexample): `BTreeIndex::undex` does NOT drop a key whose bucket
becomes empty: after indexing `(7, 0)` and undexing it again the map still
holds the key `7` with an empty bucket. -/
theorem c5_cex :
    (((BTreeIndex.new : BTreeIndex Nat).index 7 0).undex 7 0).map = [(7, [])] := rfl

/-- C5 (amended): `HashIndex::undex` drops the key from the map once removing
the row id empties its bucket, but `BTreeIndex::undex` never removes a key —
its map's key list is unchanged by every `undex` call. -/
theorem c5_key_drop (h : HashIndex T) (b : BTreeIndex T) (k : T) (r : Nat)
    (hnd : (h.map.map Prod.fst).Nodup) (hbucket : alGet? h.map k = some [r]) :
    (∃ h', h.undex? k r = some h' ∧ alGet? h'.map k = none) ∧
    (b.undex k r).map.map Prod.fst = b.map.map Prod.fst := by
  constructor
  · have hred : h.undex? k r = (match posOf? r [r] with
        | none => none
        | some i =>
          let l1 := swapRemoveAt [r] i
          if l1.isEmpty then some { h with map := alErase h.map k }
          else some { h with map := alSet h.map k l1 }) := by
      unfold HashIndex.undex?
      rw [hbucket]
    have hpos : posOf? r [r] = some 0 := by simp [posOf?]
    rw [hpos] at hred
    have hval : h.undex? k r = some { h with map := alErase h.map k } := hred
    exact ⟨{ h with map := alErase h.map k }, hval, alGet?_erase_self h.map k hnd⟩
  · exact BTreeIndex.undex_keys b k r

theorem c5_witness :
    (∃ h', (HashIndex.mk 1 [(5, [3])] : HashIndex Nat).undex? 5 3 = some h' ∧
      alGet? h'.map 5 = none) ∧
    ((BTreeIndex.mk 1 [(5, [3])] : BTreeIndex Nat).undex 5 3).map.map Prod.fst =
      ([(5, [3])] : List (Nat × List Nat)).map Prod.fst :=
  c5_key_drop ⟨1, [(5, [3])]⟩ ⟨1, [(5, [3])]⟩ 5 3 (by decide) (by decide)

/-- C8: along any sequence of operations run from any store, the row
identifiers assigned by the successive inserts are strictly increasing —
hence never reused — even when deletes (or index attachments) happen between
the inserts. -/
theorem c8_rowid_monotone (s : Store T) (ops : List (Op T)) (sf : Store T)
    (ids : List Nat) (h : runOps s ops = some (sf, ids)) :
    ids.Pairwise (· < ·) ∧ ids.Nodup := by
  have h2 := (runOps_lb ops s sf ids h).2
  exact ⟨h2, h2.imp (fun hlt => ne_of_lt hlt)⟩

theorem c8_witness : ([0, 1, 2] : List Nat).Pairwise (· < ·) ∧ ([0, 1, 2] : List Nat).Nodup :=
  c8_rowid_monotone (Store.new 1)
    [Op.ins [5], Op.ins [6], Op.del [] (fun _ => true), Op.ins [7]]
    ⟨1, 3, [(2, [7])], []⟩ [0, 1, 2] (by rfl)

/-- C1: in every reachable store, every attached index holds, for each stored
row, the pair (that row's value at the indexed column, its row id) exactly
once — and under no other key — and holds no row id that is not currently
stored. -/
theorem c1_index_invariant (s : Store T) (h : Reachable s) :
    ∀ col idx, alGet? s.indices col = some idx →
      (∀ rid row, alGet? s.rows rid = some row →
        ∃ k, row.get? col = some k ∧ (idx.lookup k).count rid = 1 ∧
          ∀ k', k' ≠ k → (idx.lookup k').count rid = 0) ∧
      (∀ k rid, rid ∈ idx.lookup k → (alGet? s.rows rid).isSome) := by
  have hwf := reachable_wf h
  intro col idx hget
  have hmem := alGet?_mem hget
  have hinv := hwf.idx_inv (col, idx) hmem
  have hcol := hwf.idx_cols (col, idx) hmem
  constructor
  · intro rid row hrow
    have hlen := hwf.rows_len (rid, row) (alGet?_mem hrow)
    obtain ⟨k, hk⟩ := get?_isSome_of_lt (show col < row.length by rw [hlen]; exact hcol)
    refine ⟨k, hk, ?_, ?_⟩
    · have h1 := hinv k rid
      rw [hrow] at h1
      simp only [rowCount] at h1
      rw [if_pos hk] at h1
      exact h1
    · intro k' hne
      have h1 := hinv k' rid
      rw [hrow] at h1
      simp only [rowCount] at h1
      rw [if_neg (by
        rw [hk]
        intro hcon
        exact hne (Option.some.inj hcon).symm)] at h1
      exact h1
  · intro k rid hmem'
    have hcnt : 0 < (idx.lookup k).count rid := List.count_pos_iff.mpr hmem'
    rw [hinv k rid] at hcnt
    cases hrow : alGet? s.rows rid with
    | none =>
      rw [hrow] at hcnt
      simp [rowCount] at hcnt
    | some w => rfl

theorem c1_witness :
    ∃ k, ([5] : List Nat).get? 0 = some k ∧
      ((Index.hash ⟨1, [(5, [0])]⟩ : Index Nat).lookup k).count 0 = 1 ∧
      ∀ k', k' ≠ k → ((Index.hash ⟨1, [(5, [0])]⟩ : Index Nat).lookup k').count 0 = 0 := by
  have h0 : (Store.new 1 : Store Nat).index? 0 (Index.hash ⟨0, []⟩) =
      some ⟨1, 0, [], [(0, Index.hash ⟨0, []⟩)]⟩ := by rfl
  have hfresh : (Index.hash ⟨0, []⟩ : Index Nat).Fresh := ⟨rfl, rfl⟩
  have h1 : Reachable (⟨1, 0, [], [(0, Index.hash ⟨0, []⟩)]⟩ : Store Nat) :=
    Reachable.attach (Reachable.new 1) (by decide) hfresh h0
  have h1i : (⟨1, 0, [], [(0, Index.hash ⟨0, []⟩)]⟩ : Store Nat).insert? [5] =
      some ⟨1, 1, [(0, [5])], [(0, Index.hash ⟨1, [(5, [0])]⟩)]⟩ := by rfl
  have h2 : Reachable (⟨1, 1, [(0, [5])], [(0, Index.hash ⟨1, [(5, [0])]⟩)]⟩ : Store Nat) :=
    Reachable.insert h1 h1i
  exact (c1_index_invariant _ h2 0 (Index.hash ⟨1, [(5, [0])]⟩) (by rfl)).1 0 [5] (by rfl)

omit [DecidableEq T] in
theorem minByEstAux_none :
    ∀ {l : List (T × Index T)} {best : T × Index T} {kb : Nat},
      minByEstAux best kb l = none → ∃ x ∈ l, x.2.estimate? = none := by
  intro l
  induction l with
  | nil =>
    intro best kb h
    cases h
  | cons x xs ih =>
    intro best kb h
    cases he : x.2.estimate? with
    | none => exact ⟨x, by simp, he⟩
    | some kx =>
      rw [minByEstAux, he] at h
      have h' : (if kx < kb then minByEstAux x kx xs else minByEstAux best kb xs) =
          none := h
      by_cases hlt : kx < kb
      · rw [if_pos hlt] at h'
        obtain ⟨x', hx', he'⟩ := ih h'
        exact ⟨x', List.mem_cons_of_mem _ hx', he'⟩
      · rw [if_neg hlt] at h'
        obtain ⟨x', hx', he'⟩ := ih h'
        exact ⟨x', List.mem_cons_of_mem _ hx', he'⟩

omit [DecidableEq T] in
theorem minByEst?_none {l : List (T × Index T)} (h : minByEst? l = none) :
    ∃ x ∈ l, x.2.estimate? = none := by
  cases l with
  | nil => cases h
  | cons x xs =>
    cases he : x.2.estimate? with
    | none => exact ⟨x, by simp, he⟩
    | some kx =>
      rw [minByEst?, he] at h
      have h' : (minByEstAux x kx xs).map some = none := h
      cases haux : minByEstAux x kx xs with
      | some m => rw [haux] at h'; cases h'
      | none =>
        obtain ⟨x', hx', he'⟩ := minByEstAux_none haux
        exact ⟨x', List.mem_cons_of_mem _ hx', he'⟩

theorem Index.estimate?_none_lookup {idx : Index T} (h : idx.estimate? = none) (k : T) :
    idx.lookup k = [] := by
  cases idx with
  | hash h0 => cases h
  | btree b =>
    replace h : b.estimate? = none := h
    show (alGet? b.map k).getD [] = []
    unfold BTreeIndex.estimate? at h
    by_cases hlen : b.map.length = 0
    · rw [List.length_eq_zero.mp hlen]
      rfl
    · rw [if_neg hlen] at h
      cases h

omit [DecidableEq T] in
theorem mapGetRows?_none {rows : List (Nat × List T)} :
    ∀ {ids : List Nat}, mapGetRows? rows ids = none →
      ∃ rid ∈ ids, alGet? rows rid = none := by
  intro ids
  induction ids with
  | nil => intro h; cases h
  | cons rid t ih =>
    intro h
    cases hget : alGet? rows rid with
    | none => exact ⟨rid, by simp, hget⟩
    | some row =>
      rw [mapGetRows?, hget] at h
      have h' : (match mapGetRows? rows t with
          | none => none
          | some rs => some (row :: rs)) = none := h
      cases ht : mapGetRows? rows t with
      | some rs => rw [ht] at h'; cases h'
      | none =>
        obtain ⟨rid', hrid', hget'⟩ := ih ht
        exact ⟨rid', List.mem_cons_of_mem _ hrid', hget'⟩

theorem filterMatching?_none {conds : List (Condition T)} :
    ∀ {rs : List (List T)}, filterMatching? conds rs = none →
      ∃ r ∈ rs, allMatch? conds r = none := by
  intro rs
  induction rs with
  | nil => intro h; cases h
  | cons r0 t ih =>
    intro h
    cases hm : allMatch? conds r0 with
    | none => exact ⟨r0, by simp, hm⟩
    | some b =>
      rw [filterMatching?, hm] at h
      have h' : (match filterMatching? conds t with
          | none => none
          | some t' => some (if b then r0 :: t' else t')) = none := h
      cases ht : filterMatching? conds t with
      | some l' => rw [ht] at h'; cases h'
      | none =>
        obtain ⟨r', hr', hm'⟩ := ih ht
        exact ⟨r', List.mem_cons_of_mem _ hr', hm'⟩

theorem matches?_isSome_of_len {c : Condition T} {r r0 : List T}
    (hlen : r0.length = r.length) (h : (c.matches? r).isSome) :
    (c.matches? r0).isSome := by
  unfold Condition.matches? at h ⊢
  cases hg : r.get? c.column with
  | none =>
    rw [hg] at h
    cases h
  | some v =>
    rw [hg] at h
    replace h : (c.cmp.matches? v r).isSome := h
    have hcol : c.column < r.length := by
      by_contra hcon
      rw [List.get?_eq_none.mpr (Nat.le_of_not_lt hcon)] at hg
      cases hg
    obtain ⟨v0, hv0⟩ := get?_isSome_of_lt (show c.column < r0.length by
      rw [hlen]; exact hcol)
    rw [hv0]
    show (c.cmp.matches? v0 r0).isSome
    cases hcmp : c.cmp with
    | equal w =>
      rw [hcmp] at h
      cases w with
      | const u =>
        unfold Comparison.matches? Value.value?
        rfl
      | column i =>
        replace h : ((r.get? i).map (fun x => decide (v = x))).isSome := h
        show ((r0.get? i).map (fun x => decide (v0 = x))).isSome
        cases hgi : r.get? i with
        | none => rw [hgi] at h; cases h
        | some u =>
          have hi : i < r.length := by
            by_contra hcon
            rw [List.get?_eq_none.mpr (Nat.le_of_not_lt hcon)] at hgi
            cases hgi
          obtain ⟨u0, hu0⟩ := get?_isSome_of_lt (show i < r0.length by
            rw [hlen]; exact hi)
          rw [hu0]
          rfl

theorem allMatch?_isSome_of_true {conds : List (Condition T)} {r r0 : List T}
    (hlen : r0.length = r.length) (h : allMatch? conds r = some true) :
    (allMatch? conds r0).isSome := by
  induction conds with
  | nil => rfl
  | cons c cs ih =>
    have hinv := allMatch?_true_iff.mp h
    have hc : c.matches? r = some true := hinv c (by simp)
    have hcs : allMatch? cs r = some true :=
      allMatch?_true_iff.mpr (fun c' hc' => hinv c' (List.mem_cons_of_mem _ hc'))
    have h0 : (c.matches? r0).isSome := matches?_isSome_of_len hlen (by rw [hc]; rfl)
    obtain ⟨b, hb⟩ := Option.isSome_iff_exists.mp h0
    rw [allMatch?, hb]
    show (if b then allMatch? cs r0 else some false).isSome
    cases b with
    | false => rw [if_neg (by simp)]; rfl
    | true =>
      rw [if_pos rfl]
      exact ih hcs

/-- C3: on a well-formed (reachable) store, a completed `find` yields exactly
those stored rows on which every condition in the list evaluates to true —
conditions are conjoined, every candidate produced by the chosen index is
re-verified against all of them, and a row matching the planning condition
but failing another is not returned; moreover, when `find` panics instead
(`none`), no stored row satisfies all the conditions, so no matching row is
ever missed. -/
theorem c3_find_exact (s : Store T) (hwf : s.WF) (conds : List (Condition T)) :
    (∀ l, s.find? conds = some l →
      ∀ r, r ∈ l ↔ ∃ rid, alGet? s.rows rid = some r ∧ allMatch? conds r = some true) ∧
    (s.find? conds = none →
      ∀ rid r, alGet? s.rows rid = some r → allMatch? conds r ≠ some true) := by
  constructor
  · intro l h r
    exact Store.find_mem_spec hwf h r
  · intro hnone rid r hrow hmt
    unfold Store.find? at hnone
    cases hu : s.using_index? conds with
    | none =>
      unfold Store.using_index? at hu
      cases hmE : minByEst? (s.eligible conds) with
      | some o =>
        rw [hmE] at hu
        cases o with
        | none => cases hu
        | some p => obtain ⟨v, idx⟩ := p; cases hu
      | none =>
        obtain ⟨x, hx, hxe⟩ := minByEst?_none hmE
        obtain ⟨v, idx⟩ := x
        obtain ⟨c, hcmem, hget, hcmp⟩ := mem_eligible.mp hx
        have hinv := hwf.idx_inv (c.column, idx) (alGet?_mem hget)
        have hrv : r.get? c.column = some v :=
          (matches?_const_true hcmp).mp (allMatch?_true_iff.mp hmt c hcmem)
        have hcnt := hinv v rid
        rw [hrow] at hcnt
        simp only [rowCount] at hcnt
        rw [if_pos hrv] at hcnt
        rw [show Index.lookup (c.column, idx).2 v = [] from
          Index.estimate?_none_lookup hxe v] at hcnt
        cases hcnt
    | some ids =>
      rw [hu] at hnone
      replace hnone : (match mapGetRows? s.rows ids with
          | none => none
          | some rs => filterMatching? conds rs) = none := hnone
      cases hm : mapGetRows? s.rows ids with
      | none =>
        obtain ⟨rid0, hrid0, hnone0⟩ := mapGetRows?_none hm
        have hsome := (Store.candidate_facts hwf hu).2 rid0 hrid0
        rw [hnone0] at hsome
        cases hsome
      | some rs =>
        rw [hm] at hnone
        obtain ⟨r0, hr0, hnone0⟩ := filterMatching?_none hnone
        obtain ⟨rid0, hrid0, hget0⟩ := (mapGetRows?_mem hm r0).mp hr0
        have hlen0 := hwf.rows_len (rid0, r0) (alGet?_mem hget0)
        have hlenr := hwf.rows_len (rid, r) (alGet?_mem hrow)
        have hs := allMatch?_isSome_of_true (show r0.length = r.length by
          rw [hlen0, hlenr]) hmt
        rw [hnone0] at hs
        cases hs

theorem c3_witness :
    [5] ∈ ([[5]] : List (List Nat)) ↔
      ∃ rid, alGet? ([(0, [5])] : List (Nat × List Nat)) rid = some [5] ∧
        allMatch? [⟨0, Comparison.equal (Value.const 5)⟩] [5] = some true := by
  have hwf : (⟨1, 1, [(0, [5])], []⟩ : Store Nat).WF := by
    constructor
    · show ([0] : List Nat).Pairwise (· < ·)
      simp
    · intro p hp
      rw [List.mem_singleton] at hp
      rw [hp]
      decide
    · intro p hp
      rw [List.mem_singleton] at hp
      rw [hp]
      decide
    · show ([] : List Nat).Nodup
      simp
    · exact fun q hq => absurd hq (List.not_mem_nil q)
    · exact fun q hq => absurd hq (List.not_mem_nil q)
    · exact fun q hq => absurd hq (List.not_mem_nil q)
  have hf : (⟨1, 1, [(0, [5])], []⟩ : Store Nat).find?
      [⟨0, Comparison.equal (Value.const 5)⟩] = some [[5]] := by rfl
  exact (c3_find_exact _ hwf _).1 [[5]] hf [5]

/-- C2 (counterexample): `find` does NOT always return the identical result
set with and without an index.  With a never-populated `BTreeIndex` attached,
`find` panics on `estimate`'s division by zero (`none`) while the unindexed
store returns `some []`; and with an out-of-range column in a leading
condition, the indexed plan returns `some []` (no candidates, so the
condition is never evaluated) while the full scan panics evaluating it. -/
theorem c2_cex :
    ((⟨1, 0, [], [(0, Index.btree ⟨0, []⟩)]⟩ : Store Nat).find?
        [⟨0, Comparison.equal (Value.const 5)⟩] = none ∧
      (Store.new 1 : Store Nat).find? [⟨0, Comparison.equal (Value.const 5)⟩] = some []) ∧
    ((⟨1, 1, [(0, [7])], [(0, Index.hash ⟨1, [(7, [0])]⟩)]⟩ : Store Nat).find?
        [⟨3, Comparison.equal (Value.const 5)⟩, ⟨0, Comparison.equal (Value.const 5)⟩] =
        some [] ∧
      (⟨1, 1, [(0, [7])], []⟩ : Store Nat).find?
        [⟨3, Comparison.equal (Value.const 5)⟩, ⟨0, Comparison.equal (Value.const 5)⟩] =
        none) :=
  ⟨⟨rfl, rfl⟩, rfl, rfl⟩

/-- C2 (amended): whenever `find` completes without panicking on both sides,
any two well-formed (reachable) stores holding the same rows — e.g. the same
store with or without an attached index, or with the index attached before or
after the inserts — return the identical result set for every condition
list. -/
theorem c2_index_transparency (s t : Store T) (hs : s.WF) (ht : t.WF)
    (hrows : s.rows = t.rows) (conds : List (Condition T)) (ls lt1 : List (List T))
    (hfs : s.find? conds = some ls) (hft : t.find? conds = some lt1) :
    ∀ r, r ∈ ls ↔ r ∈ lt1 := by
  intro r
  rw [Store.find_mem_spec hs hfs r, Store.find_mem_spec ht hft r, hrows]

theorem c2_witness :
    [5] ∈ ([[5]] : List (List Nat)) ↔ [5] ∈ ([[5]] : List (List Nat)) := by
  have hfresh : (Index.hash ⟨0, []⟩ : Index Nat).Fresh := ⟨rfl, rfl⟩
  have h0 : (Store.new 1 : Store Nat).index? 0 (Index.hash ⟨0, []⟩) =
      some ⟨1, 0, [], [(0, Index.hash ⟨0, []⟩)]⟩ := by rfl
  have h1 : Reachable (⟨1, 0, [], [(0, Index.hash ⟨0, []⟩)]⟩ : Store Nat) :=
    Reachable.attach (Reachable.new 1) (by decide) hfresh h0
  have h1i : (⟨1, 0, [], [(0, Index.hash ⟨0, []⟩)]⟩ : Store Nat).insert? [5] =
      some ⟨1, 1, [(0, [5])], [(0, Index.hash ⟨1, [(5, [0])]⟩)]⟩ := by rfl
  have h2 : Reachable (⟨1, 1, [(0, [5])], [(0, Index.hash ⟨1, [(5, [0])]⟩)]⟩ : Store Nat) :=
    Reachable.insert h1 h1i
  have h3i : (Store.new 1 : Store Nat).insert? [5] = some ⟨1, 1, [(0, [5])], []⟩ := by rfl
  have h3 : Reachable (⟨1, 1, [(0, [5])], []⟩ : Store Nat) :=
    Reachable.insert (Reachable.new 1) h3i
  exact c2_index_transparency _ _ (reachable_wf h2) (reachable_wf h3) rfl
    [⟨0, Comparison.equal (Value.const 5)⟩] [[5]] [[5]] (by rfl) (by rfl) [5]

/-- C7: a condition contributes an eligible pair exactly when its column has an
attached index and its comparison is equality against a constant (so
column-vs-column equality is never index-eligible); when no condition is
eligible the planner falls back to scanning all stored row ids in ascending
order, and otherwise (with every eligible `estimate()` succeeding) it selects
an eligible pair of minimal estimate and produces the candidates via that
index's `lookup` on the condition's constant. -/
theorem c7_planner (s : Store T) (conds : List (Condition T)) :
    (∀ v idx, ((v, idx) ∈ s.eligible conds ↔
      ∃ c ∈ conds, alGet? s.indices c.column = some idx ∧
        c.cmp = Comparison.equal (Value.const v))) ∧
    (s.eligible conds = [] → s.using_index? conds = some (s.rows.map Prod.fst)) ∧
    (s.eligible conds ≠ [] →
      (∀ p ∈ s.eligible conds, (Index.estimate? p.2).isSome) →
      ∃ v idx e, (v, idx) ∈ s.eligible conds ∧ Index.estimate? idx = some e ∧
        (∀ v' idx' e', (v', idx') ∈ s.eligible conds →
          Index.estimate? idx' = some e' → e ≤ e') ∧
        s.using_index? conds = some (idx.lookup v)) := by
  refine ⟨fun v idx => mem_eligible, ?_, ?_⟩
  · intro hnil
    unfold Store.using_index?
    rw [hnil]
    rfl
  · intro hne hall
    obtain ⟨m, hm⟩ := minByEst?_isSome hne hall
    obtain ⟨hmem, e, he, hmin⟩ := minByEst?_spec hm
    obtain ⟨v, idx⟩ := m
    refine ⟨v, idx, e, hmem, he, ?_, ?_⟩
    · intro v' idx' e' hmem' he'
      exact hmin (v', idx') hmem' e' he'
    · unfold Store.using_index?
      rw [hm]

theorem c7_witness :
    ((⟨1, 1, [(0, [5])], []⟩ : Store Nat).using_index?
        [⟨0, Comparison.equal (Value.const 5)⟩] = some [0]) ∧
    (∃ v idx e,
      (v, idx) ∈ (⟨1, 1, [(0, [5])], [(0, Index.hash ⟨1, [(5, [0])]⟩)]⟩ :
        Store Nat).eligible [⟨0, Comparison.equal (Value.const 5)⟩] ∧
      Index.estimate? idx = some e ∧
      (∀ v' idx' e', (v', idx') ∈ (⟨1, 1, [(0, [5])], [(0, Index.hash ⟨1, [(5, [0])]⟩)]⟩ :
          Store Nat).eligible [⟨0, Comparison.equal (Value.const 5)⟩] →
        Index.estimate? idx' = some e' → e ≤ e') ∧
      (⟨1, 1, [(0, [5])], [(0, Index.hash ⟨1, [(5, [0])]⟩)]⟩ : Store Nat).using_index?
        [⟨0, Comparison.equal (Value.const 5)⟩] = some (idx.lookup v)) :=
  ⟨(c7_planner _ _).2.1 (by rfl),
   (c7_planner _ _).2.2 (by exact List.cons_ne_nil _ _) (by decide)⟩

omit [DecidableEq T] in
theorem mapGetRows?_of_lookup {rows : List (Nat × List T)} :
    ∀ {l : List (Nat × List T)}, (∀ p ∈ l, alGet? rows p.1 = some p.2) →
      mapGetRows? rows (l.map Prod.fst) = some (l.map Prod.snd) := by
  intro l
  induction l with
  | nil => intro _; rfl
  | cons p t ih =>
    intro hall
    obtain ⟨rid, row⟩ := p
    have hs : alGet? rows rid = some row := hall (rid, row) (by simp)
    have hred : mapGetRows? rows (rid :: t.map Prod.fst) =
        (match mapGetRows? rows (t.map Prod.fst) with
          | none => none
          | some rs => some (row :: rs)) := by
      rw [mapGetRows?, hs]
    have ht := ih (fun p hp => hall p (List.mem_cons_of_mem _ hp))
    show mapGetRows? rows (rid :: t.map Prod.fst) = some (row :: t.map Prod.snd)
    rw [hred, ht]

theorem filterMatching?_eq {conds : List (Condition T)} :
    ∀ {rs l : List (List T)}, filterMatching? conds rs = some l →
      l = rs.filter (fun r => decide (allMatch? conds r = some true)) := by
  intro rs
  induction rs with
  | nil =>
    intro l h
    simp only [filterMatching?, Option.some.injEq] at h
    rw [← h]
    rfl
  | cons r0 t ih =>
    intro l h
    cases hm : allMatch? conds r0 with
    | none => rw [filterMatching?, hm] at h; cases h
    | some b =>
      rw [filterMatching?, hm] at h
      have h' : (match filterMatching? conds t with
          | none => none
          | some t' => some (if b then r0 :: t' else t')) = some l := h
      cases ht : filterMatching? conds t with
      | none => rw [ht] at h'; cases h'
      | some l' =>
        rw [ht] at h'
        injection h' with h'
        rw [← h', List.filter_cons]
        cases b with
        | true =>
          rw [if_pos rfl, if_pos (by simp [hm])]
          rw [ih ht]
        | false =>
          rw [if_neg (by simp), if_neg (by simp [hm])]
          exact ih ht

theorem filter_map_snd {A B : Type} (p : B → Bool) (l : List (A × B)) :
    (l.map Prod.snd).filter p = (l.filter (fun q => p q.2)).map Prod.snd := by
  induction l with
  | nil => rfl
  | cons q t ih =>
    rw [List.map_cons, List.filter_cons, List.filter_cons]
    by_cases hp : p q.2
    · simp only [hp, if_pos]
      rw [List.map_cons, ih]
    · simp only [hp]
      rw [if_neg (by simp [hp]), if_neg (by simp [hp])]
      exact ih

/-- C10: whenever no condition is index-eligible — in particular for an empty
condition list — a non-panicking `find` yields exactly the matching rows in
the row map's order, which is strictly ascending row-identifier order, i.e.
the insertion order of the surviving rows. -/
theorem c10_scan_order (s : Store T)
    (hsort : (s.rows.map Prod.fst).Pairwise (· < ·)) (conds : List (Condition T))
    (l : List (List T)) (hne : s.eligible conds = []) (h : s.find? conds = some l) :
    l = (s.rows.filter (fun p => decide (allMatch? conds p.2 = some true))).map Prod.snd ∧
    ((s.rows.filter (fun p => decide (allMatch? conds p.2 = some true))).map
        Prod.fst).Pairwise (· < ·) := by
  obtain ⟨ids, rs, hu, hm, hf⟩ := Store.find?_inv h
  have hscan : ids = s.rows.map Prod.fst := by
    unfold Store.using_index? at hu
    rw [hne] at hu
    have hu' : some (s.rows.map Prod.fst) = some ids := hu
    exact (Option.some.inj hu').symm
  have hnd : (s.rows.map Prod.fst).Nodup := hsort.nodup
  have hrs : rs = s.rows.map Prod.snd := by
    rw [hscan] at hm
    rw [mapGetRows?_of_lookup (fun p hp => alGet?_of_mem_nodup hnd hp)] at hm
    exact (Option.some.inj hm).symm
  refine ⟨?_, ?_⟩
  · rw [filterMatching?_eq hf, hrs, filter_map_snd]
  · exact List.Pairwise.sublist ((List.filter_sublist s.rows).map Prod.fst) hsort

theorem c10_witness :
    (([[5]] : List (List Nat)) =
      ((([(0, [5]), (1, [7])] : List (Nat × List Nat)).filter
          (fun p => decide (allMatch? [⟨0, Comparison.equal (Value.const 5)⟩] p.2 =
            some true))).map Prod.snd)) ∧
    (((([(0, [5]), (1, [7])] : List (Nat × List Nat)).filter
        (fun p => decide (allMatch? [⟨0, Comparison.equal (Value.const 5)⟩] p.2 =
          some true))).map Prod.fst).Pairwise (· < ·)) :=
  c10_scan_order ⟨1, 2, [(0, [5]), (1, [7])], []⟩ (by decide)
    [⟨0, Comparison.equal (Value.const 5)⟩] [[5]] (by rfl) (by rfl)

end Claims

end Shortcut
